import Mathlib

/-!
The package jsonstream: framing readers and writers.

A shallow embedding of the Go package `jsonstream` (files `api.go`, `lp.go`,
`tseq.go`, `ndlines.go`, `concat.go`) together with theorems about its framing
behaviour.

Conventions of the embedding

* A Go `byte` is a natural number (`Byte`); a `[]byte` is a `List Byte`, the
  `nil` slice being `[]`.
* A Go `error` is `Option Error`, `none` being `nil`.
* Every method of the package has a *value* receiver.  A call therefore runs
  the method body on a copy of the receiver struct: assignments to plain
  fields of the copy are lost when the call returns, while everything reached
  through a pointer or interface field (the `*bufio.Scanner`, the `io.Writer`,
  the `*json.Decoder`) is shared with the caller.  Each method is given as a `...Body` function
  that also returns the final receiver copy, and a call function that keeps
  the caller's struct and takes over only the shared part.
-/

namespace Jsonstream

/-! ## Bytes, errors, sinks and sources -/

/-- A Go `byte`. -/
abbrev Byte := Nat

/-- The error values the modelled code can return. -/
inductive Error where
  /-- The sentinel `io.EOF`. -/
  | EOF
  /-- The `*strconv.NumError` of `strconv.Atoi` with `strconv.ErrSyntax`, for input `num`. -/
  | AtoiSyntaxErr (num : List Byte)
  /-- The `*strconv.NumError` of `strconv.Atoi` with `strconv.ErrRange`, for input `num`. -/
  | AtoiRangeErr (num : List Byte)
  /-- The value of `fmt.Errorf("Empty doc")`. -/
  | EmptyDoc
  /-- The sentinel `io.ErrShortWrite`. -/
  | ShortWrite
  /-- Any error raised by the underlying `io.Reader` or `io.Writer`. -/
  | Other (code : Nat)
  /-- The sentinel `bufio.ErrTooLong`. -/
  | TooLong
  /-- Any error returned by `encoding/json`. -/
  | Json (code : Nat)
  /-- The value of `fmt.Errorf("Pointer to slice required")`. -/
  | PointerRequired
  /-- The value of `fmt.Errorf("Pointer is not pointing to a slice")`. -/
  | NotASlice
  deriving DecidableEq

/-- An `io.Writer` whose state has type `σ`: `Write s p` returns the pair
`(n, err)` of the Go call and the next state of the sink. -/
structure Writer (σ : Type) where
  Write : σ → List Byte → (Nat × Option Error) × σ

/-- The sink `bytes.Buffer`: it accepts every write and appends it to its contents. -/
def bytesBuffer : Writer (List Byte) :=
  ⟨fun s p => ((p.length, none), s ++ p)⟩

/-- A `*bufio.Scanner` with split function `bufio.ScanBytes`, as the pointee
shared by all copies of a reader: `src` holds the bytes the underlying
`io.Reader` has yet to deliver, `srcErr` the error that reader returns after
them (`none` for a clean `io.EOF`). -/
structure Scanner where
  src : List Byte
  srcErr : Option Error
  deriving DecidableEq

/-- `bufio.NewScanner(bytes.NewReader(b))` followed by `Split(bufio.ScanBytes)`. -/
def Scanner.ofBytes (b : List Byte) : Scanner := ⟨b, none⟩

/-- `Scan()` then `Bytes()[0]`: `some (c, s1)` when `Scan` returns true with the
one-byte token `c`, `none` when it returns false. -/
def Scanner.Scan (s : Scanner) : Option (Byte × Scanner) :=
  match s.src with
  | [] => none
  | c :: rest => some (c, { s with src := rest })

/-- `Err()` once `Scan` has returned false: the reader's error, `nil` for `io.EOF`. -/
def Scanner.Err (s : Scanner) : Option Error := s.srcErr

/-! ## tseq.go: record-separator framing -/

/-- The struct `SeqWriter`; `w` is an interface value, the sink state is threaded
separately. -/
structure SeqWriter (σ : Type) where
  sep : Byte
  w : Writer σ
  notfirst : Bool

/-- `NewSeqWriter`. -/
def NewSeqWriter {σ : Type} (w : Writer σ) : SeqWriter σ :=
  { w := w, sep := 0x1e, notfirst := false }

/-- `NewSeqWriterSep`. -/
def NewSeqWriterSep {σ : Type} (w : Writer σ) (sep : Byte) : SeqWriter σ :=
  { w := w, sep := sep, notfirst := false }

/-- Body of `func (w SeqWriter) WriteRaw(data []byte) error`, run on the receiver
copy `w`: returns the error, the final receiver copy and the sink. -/
def SeqWriter.WriteRawBody {σ : Type} (w : SeqWriter σ) (data : List Byte) (s : σ) :
    Option Error × SeqWriter σ × σ :=
  let step2 (s1 : σ) : Option Error × SeqWriter σ × σ :=
    let w1 := { w with notfirst := true }
    let r := w1.w.Write s1 data
    (r.1.2, w1, r.2)
  if w.notfirst then
    let r := w.w.Write s [w.sep]
    match r.1.2 with
    | some err => (some err, w, r.2)
    | none => step2 r.2
  else step2 s

/-- A call `w.WriteRaw(data)`: the receiver is passed by value, so the caller's
`w` is what it was; only the sink behind the interface field changes. -/
def SeqWriter.WriteRaw {σ : Type} (w : SeqWriter σ) (data : List Byte) (s : σ) :
    Option Error × SeqWriter σ × σ :=
  let r := w.WriteRawBody data s
  (r.1, w, r.2.2)

/-- The documents `docs` written in order with `WriteRaw` on one `SeqWriter`,
stopping at the first error. -/
def SeqWriter.writeDocs {σ : Type} (w : SeqWriter σ) : List (List Byte) → σ → Option Error × σ
  | [], s => (none, s)
  | d :: ds, s =>
    match w.WriteRaw d s with
    | (some err, _, s1) => (some err, s1)
    | (none, w1, s1) => SeqWriter.writeDocs w1 ds s1

/-- The struct `SeqReader`; `scn` is the pointee of the `*bufio.Scanner`. -/
structure SeqReader where
  sep : Byte
  scn : Scanner
  deriving DecidableEq

/-- `NewSeqReader` over `bytes.NewReader(b)`. -/
def NewSeqReader (b : List Byte) : SeqReader := { sep := 0x1e, scn := Scanner.ofBytes b }

/-- `NewSeqReaderWithSep` over `bytes.NewReader(b)`. -/
def NewSeqReaderWithSep (b : List Byte) (sep : Byte) : SeqReader :=
  { NewSeqReader b with sep := sep }

/-- The loop `for r.scn.Scan() { ... }` of `SeqReader.ReadRaw` and the statements
after it, by recursion on the bytes the scanner has yet to deliver; `out` is the
local of that name.  Returns the Go result pair and the scanner afterwards. -/
def SeqReader.scanLoop (sep : Byte) (srcErr : Option Error) :
    List Byte → List Byte → (List Byte × Option Error) × Scanner
  | [], _ =>
    -- Scan() returned false: err := r.scn.Err()
    match Scanner.Err ⟨[], srcErr⟩ with
    | some err => (([], some err), ⟨[], srcErr⟩)
    | none => (([], some Error.EOF), ⟨[], srcErr⟩)
  | c :: rest, out =>
    if c = sep then ((out, none), ⟨rest, srcErr⟩)
    else SeqReader.scanLoop sep srcErr rest (out ++ [c])

/-- Body of `func (r SeqReader) ReadRaw() ([]byte, error)` on the receiver copy. -/
def SeqReader.ReadRawBody (r : SeqReader) : (List Byte × Option Error) × SeqReader :=
  let res := SeqReader.scanLoop r.sep r.scn.srcErr r.scn.src []
  (res.1, { r with scn := res.2 })

/-- A call `r.ReadRaw()`: the caller keeps its struct, the scanner is shared. -/
def SeqReader.ReadRaw (r : SeqReader) : (List Byte × Option Error) × SeqReader :=
  let res := r.ReadRawBody
  (res.1, { r with scn := res.2.scn })

/-- The results of `n` successive `ReadRaw` calls on one `SeqReader`. -/
def SeqReader.readN : Nat → SeqReader → List (List Byte × Option Error) × SeqReader
  | 0, r => ([], r)
  | n + 1, r =>
    let res := r.ReadRaw
    let more := SeqReader.readN n res.2
    (res.1 :: more.1, more.2)

/-- The stream the test `TestSeq` builds: every document followed by the separator. -/
def sepTerminated (sep : Byte) (docs : List (List Byte)) : List Byte :=
  (docs.map (fun d => d ++ [sep])).flatten

/-! ## strconv and unicode, as far as lp.go uses them -/

/-- `unicode.IsDigit(rune(c))` for a byte `c`: below `unicode.MaxLatin1` the only
digits are `'0'` to `'9'`. -/
def isDigit (c : Byte) : Bool := decide (48 ≤ c) && decide (c ≤ 57)

/-- The largest `int` (64-bit platform). -/
def maxInt : Nat := 2 ^ 63 - 1

/-- The value of a string of decimal digits, most significant first. -/
def digitsValue (s : List Byte) : Nat := s.foldl (fun acc c => acc * 10 + (c - 48)) 0

/-- `strconv.Atoi(string(s))` on the strings `LenPrefixedReader.ReadRaw` passes,
which hold ASCII digits only: a syntax error for the empty string, a range error
when the value does not fit an `int`, the value otherwise.  (Any other string is
given a syntax error here; signs are not modelled.) -/
def Atoi (s : List Byte) : Except Error Int :=
  if s = [] then .error (.AtoiSyntaxErr s)
  else if s.all isDigit then
    if digitsValue s ≤ maxInt then .ok (digitsValue s) else .error (.AtoiRangeErr s)
  else .error (.AtoiSyntaxErr s)

/-- Digits of `n`, most significant first, prepended to `acc`; `fuel` bounds the
number of digits. -/
def itoaAux : Nat → Nat → List Byte → List Byte
  | 0, _, acc => acc
  | fuel + 1, n, acc =>
    if n < 10 then (48 + n) :: acc
    else itoaAux fuel (n / 10) ((48 + n % 10) :: acc)

/-- `[]byte(strconv.Itoa(n))` for `n ≥ 0`: the ASCII decimal representation. -/
def Itoa (n : Nat) : List Byte := itoaAux (n + 1) n []

/-! ## lp.go: length-prefixed framing -/

/-- The struct `LenPrefixedReader`. -/
structure LenPrefixedReader where
  scn : Scanner
  err : Option Error
  deriving DecidableEq

/-- `NewLenPrefixedReader` over `bytes.NewReader(b)`. -/
def NewLenPrefixedReader (b : List Byte) : LenPrefixedReader :=
  { scn := Scanner.ofBytes b, err := none }

/-- The loop `for r.scn.Scan() { ... }` of `LenPrefixedReader.ReadRaw` and the
statements after it, by recursion on the bytes the scanner has yet to deliver.
`sz`, `out`, `readingLen` and `len` are the locals of those names (`len` is an
`int`, and goes to `-1` for a length prefix `0`).  Returns the Go result pair,
the scanner afterwards and the value of `r.err` in the receiver copy (`rerr` on
entry). -/
def LenPrefixedReader.scanLoop (srcErr : Option Error) (rerr : Option Error) :
    List Byte → List Byte → List Byte → Bool → Int →
      (List Byte × Option Error) × Scanner × Option Error
  | [], _, _, _, _ =>
    -- Scan() returned false: err = r.scn.Err()
    match Scanner.Err ⟨[], srcErr⟩ with
    | some err => (([], some err), ⟨[], srcErr⟩, some err)
    | none => (([], some Error.EOF), ⟨[], srcErr⟩, rerr)
  | c :: rest, sz, out, readingLen, len =>
    if readingLen then
      if isDigit c then
        LenPrefixedReader.scanLoop srcErr rerr rest (sz ++ [c]) out readingLen len
      else
        match Atoi sz with
        | .error err => (([], some err), ⟨rest, srcErr⟩, some err)
        | .ok n => LenPrefixedReader.scanLoop srcErr rerr rest [] (out ++ [c]) false (n - 1)
    else
      if len > 0 then
        if len - 1 = 0 then ((out ++ [c], none), ⟨rest, srcErr⟩, rerr)
        else LenPrefixedReader.scanLoop srcErr rerr rest sz (out ++ [c]) readingLen (len - 1)
      else LenPrefixedReader.scanLoop srcErr rerr rest sz out readingLen len

/-- Body of `func (r LenPrefixedReader) ReadRaw() ([]byte, error)` on the receiver
copy `r`: returns the Go result pair and the final receiver copy. -/
def LenPrefixedReader.ReadRawBody (r : LenPrefixedReader) :
    (List Byte × Option Error) × LenPrefixedReader :=
  match r.err with
  | some err => (([], some err), r)
  | none =>
    let res := LenPrefixedReader.scanLoop r.scn.srcErr r.err r.scn.src [] [] true 0
    (res.1, { scn := res.2.1, err := res.2.2 })

/-- A call `r.ReadRaw()`: the receiver is passed by value, so the caller's `err`
field is what it was; the scanner behind the pointer field is shared. -/
def LenPrefixedReader.ReadRaw (r : LenPrefixedReader) :
    (List Byte × Option Error) × LenPrefixedReader :=
  let res := r.ReadRawBody
  (res.1, { r with scn := res.2.scn })

/-- The results of `n` successive `ReadRaw` calls on one `LenPrefixedReader`. -/
def LenPrefixedReader.readN :
    Nat → LenPrefixedReader → List (List Byte × Option Error) × LenPrefixedReader
  | 0, r => ([], r)
  | n + 1, r =>
    let res := r.ReadRaw
    let more := LenPrefixedReader.readN n res.2
    (res.1 :: more.1, more.2)

/-- The struct `LenPrefixedWriter`. -/
structure LenPrefixedWriter (σ : Type) where
  w : Writer σ

/-- `NewLenPrefixedWriter`. -/
def NewLenPrefixedWriter {σ : Type} (w : Writer σ) : LenPrefixedWriter σ := { w := w }

/-- `func (w LenPrefixedWriter) WriteRaw(data []byte) error`; the method assigns
no field, so body and call coincide.  Returns the error and the sink. -/
def LenPrefixedWriter.WriteRaw {σ : Type} (w : LenPrefixedWriter σ) (data : List Byte)
    (s : σ) : Option Error × σ :=
  if data.length = 0 then (some Error.EmptyDoc, s)
  else
    let r1 := w.w.Write s (Itoa data.length)
    match r1.1.2 with
    | some err => (some err, r1.2)
    | none =>
      let r2 := w.w.Write r1.2 data
      (r2.1.2, r2.2)

/-- The documents `docs` written in order with `WriteRaw` on one
`LenPrefixedWriter`, stopping at the first error. -/
def LenPrefixedWriter.writeDocs {σ : Type} (w : LenPrefixedWriter σ) :
    List (List Byte) → σ → Option Error × σ
  | [], s => (none, s)
  | d :: ds, s =>
    match w.WriteRaw d s with
    | (some err, s1) => (some err, s1)
    | (none, s1) => LenPrefixedWriter.writeDocs w ds s1

/-- The stream the test `TestLenPrefixed` builds: `Itoa(len d)` then `d`, for every
document. -/
def lenPrefixed (docs : List (List Byte)) : List Byte :=
  (docs.map (fun d => Itoa d.length ++ d)).flatten

/-- The results expected of reading `docs` back: every document with a `nil`
error, then `io.EOF`. -/
def expectedReads (docs : List (List Byte)) : List (List Byte × Option Error) :=
  docs.map (fun d => (d, none)) ++ [([], some Error.EOF)]

/-! ## bufio.Writer, as far as ndlines.go uses it -/

/-- A `*bufio.Writer`: `wr` the underlying writer, `buf` the pending bytes
`b.buf[0:b.n]`, `size` the capacity `len(b.buf)`, `err` the sticky error. -/
structure BufWriter (σ : Type) where
  wr : Writer σ
  buf : List Byte
  size : Nat
  err : Option Error

/-- The default buffer size of `bufio`. -/
def defaultBufSize : Nat := 4096

/-- `bufio.NewWriter(w)`. -/
def BufWriter.New {σ : Type} (w : Writer σ) : BufWriter σ :=
  { wr := w, buf := [], size := defaultBufSize, err := none }

/-- `func (b *Writer) Flush() error`: returns the error, the writer and the sink. -/
def BufWriter.Flush {σ : Type} (b : BufWriter σ) (s : σ) : Option Error × BufWriter σ × σ :=
  match b.err with
  | some e => (some e, b, s)
  | none =>
    if b.buf.length = 0 then (none, b, s)
    else
      let r := b.wr.Write s b.buf
      let n := r.1.1
      let err := if n < b.buf.length ∧ r.1.2 = none then some Error.ShortWrite else r.1.2
      match err with
      | some e => (some e, { b with buf := b.buf.drop n, err := some e }, r.2)
      | none => (none, { b with buf := [] }, r.2)

/-- `func (b *Writer) WriteByte(c byte) error`: flushes when no room is available,
then stores `c`. -/
def BufWriter.WriteByte {σ : Type} (b : BufWriter σ) (c : Byte) (s : σ) :
    Option Error × BufWriter σ × σ :=
  match b.err with
  | some e => (some e, b, s)
  | none =>
    if b.size - b.buf.length ≤ 0 then
      let f := b.Flush s
      match f.1 with
      | some _ => (f.2.1.err, f.2.1, f.2.2)
      | none => (none, { f.2.1 with buf := f.2.1.buf ++ [c] }, f.2.2)
    else (none, { b with buf := b.buf ++ [c] }, s)

/-! ## ndlines.go: newline-delimited framing (writer) -/

/-- The struct `LineWriter`. -/
structure LineWriter (σ : Type) where
  w : Writer σ

/-- `NewLineWriter`. -/
def NewLineWriter {σ : Type} (w : Writer σ) : LineWriter σ := { w := w }

/-- The loop `for _, c := range data { ... }` of `LineWriter.WriteRaw`. -/
def LineWriter.writeLoop {σ : Type} (bw : BufWriter σ) :
    List Byte → σ → Option Error × BufWriter σ × σ
  | [], s => (none, bw, s)
  | c :: rest, s =>
    if c ≠ 10 then
      match bw.WriteByte c s with
      | (some err, bw1, s1) => (some err, bw1, s1)
      | (none, bw1, s1) => LineWriter.writeLoop bw1 rest s1
    else LineWriter.writeLoop bw rest s

/-- `func (w LineWriter) WriteRaw(data []byte) error`; the method assigns no field,
so body and call coincide.  Returns the error and the sink. -/
def LineWriter.WriteRaw {σ : Type} (w : LineWriter σ) (data : List Byte) (s : σ) :
    Option Error × σ :=
  let bw := BufWriter.New w.w
  match LineWriter.writeLoop bw data s with
  | (some err, _, s1) => (some err, s1)
  | (none, bw1, s1) =>
    match bw1.WriteByte 10 s1 with
    | (some err, _, s2) => (some err, s2)
    | (none, bw2, s2) =>
      let f := bw2.Flush s2
      (f.1, f.2.2)

/-- The documents `docs` written in order with `WriteRaw` on one `LineWriter`,
stopping at the first error. -/
def LineWriter.writeDocs {σ : Type} (w : LineWriter σ) :
    List (List Byte) → σ → Option Error × σ
  | [], s => (none, s)
  | d :: ds, s =>
    match w.WriteRaw d s with
    | (some err, s1) => (some err, s1)
    | (none, s1) => LineWriter.writeDocs w ds s1

/-! ## bufio.Scanner with the default split function, as far as ndlines.go uses it -/

/-- `bufio.MaxScanTokenSize`, the largest buffer a `bufio.Scanner` allocates. -/
def maxScanTokenSize : Nat := 64 * 1024

/-- `dropCR` of `bufio`: drops one trailing `'\r'`. -/
def dropCR (data : List Byte) : List Byte :=
  if data.getLast? = some 13 then data.dropLast else data

/-- Search of the buffered bytes for the first `'\n'` (`bytes.IndexByte` in
`bufio.ScanLines`): `room` is the number of bytes the buffer can still show, `acc`
the bytes passed so far.  Returns the line before the `'\n'` and the bytes after
it, `none` when no `'\n'` lies within the buffer. -/
def scanLine : Nat → List Byte → List Byte → Option (List Byte × List Byte)
  | _, [], _ => none
  | 0, _ :: _, _ => none
  | room + 1, c :: rest, acc =>
    if c = 10 then some (acc, rest) else scanLine room rest (acc ++ [c])

/-- A `*bufio.Scanner` with the default split function `bufio.ScanLines`: `src`
holds the bytes not yet passed (buffered or still in the underlying reader),
`srcErr` the error the reader returns after them (`none` for a clean `io.EOF`),
`tooLong` whether the scanner has stopped with `bufio.ErrTooLong` (then `src` is
what the full buffer holds; the scanner reads no further). -/
structure LineScanner where
  src : List Byte
  srcErr : Option Error
  tooLong : Bool
  deriving DecidableEq

/-- `bufio.NewScanner(bytes.NewReader(b))`. -/
def LineScanner.ofBytes (b : List Byte) : LineScanner := ⟨b, none, false⟩

/-- `Scan()` then `Bytes()`: `some token` when `Scan` returns true.  A line ending
within the buffer is a token (without its `'\n'` and one trailing `'\r'`); a full
buffer of `maxScanTokenSize` bytes without `'\n'` stops the scanner with
`ErrTooLong`; at the end of the input a non-empty unterminated rest is a final
token. -/
def LineScanner.Scan (s : LineScanner) : Option (List Byte) × LineScanner :=
  match scanLine maxScanTokenSize s.src [] with
  | some (line, rest) => (some (dropCR line), { s with src := rest })
  | none =>
    if s.tooLong = false ∧ maxScanTokenSize ≤ s.src.length then
      (none, { s with src := s.src.take maxScanTokenSize, tooLong := true })
    else if s.src = [] then (none, s)
    else (some (dropCR s.src), { s with src := [] })

/-- `Err()` once `Scan` has returned false. -/
def LineScanner.Err (s : LineScanner) : Option Error :=
  if s.tooLong then some Error.TooLong else s.srcErr

/-! ## encoding/json, as far as the readers use it -/

/-- The call `json.Unmarshal(o, &out)` for an output of type `α`: from the bytes
`o` and the value `out` holds, the error returned and the value `out` holds
afterwards. -/
abbrev Codec (α : Type) := List Byte → α → Option Error × α

/-! ## ndlines.go: newline-delimited framing (reader) -/

/-- The struct `LineReader`. -/
structure LineReader where
  scn : LineScanner
  deriving DecidableEq

/-- `NewLineReader` over `bytes.NewReader(b)`. -/
def NewLineReader (b : List Byte) : LineReader := { scn := LineScanner.ofBytes b }

/-- `func (r LineReader) ReadRaw() ([]byte, error)`; the method assigns no field,
so body and call coincide. -/
def LineReader.ReadRaw (r : LineReader) : (List Byte × Option Error) × LineReader :=
  let sc := r.scn.Scan
  match sc.1 with
  | some o => ((o, none), { r with scn := sc.2 })
  | none =>
    match sc.2.Err with
    | none => (([], some Error.EOF), { r with scn := sc.2 })
    | some err => (([], some err), { r with scn := sc.2 })

/-- `func (r LineReader) Unmarshal(out interface{}) error`: returns the error, the
value `out` holds afterwards and the reader. -/
def LineReader.Unmarshal {α : Type} (codec : Codec α) (r : LineReader) (out : α) :
    (Option Error × α) × LineReader :=
  let sc := r.scn.Scan
  match sc.1 with
  | some o => (codec o out, { r with scn := sc.2 })
  | none =>
    match sc.2.Err with
    | none => ((some Error.EOF, out), { r with scn := sc.2 })
    | some err => ((some err, out), { r with scn := sc.2 })

/-- The results of `n` successive `ReadRaw` calls on one `LineReader`. -/
def LineReader.readN : Nat → LineReader → List (List Byte × Option Error) × LineReader
  | 0, r => ([], r)
  | n + 1, r =>
    let res := r.ReadRaw
    let more := LineReader.readN n res.2
    (res.1 :: more.1, more.2)

/-! ## lp.go and tseq.go: Unmarshal -/

/-- Body of `func (r LenPrefixedReader) Unmarshal(out interface{}) error` on the
receiver copy `r`, which calls `r.ReadRaw()` and then `json.Unmarshal(o, &out)`. -/
def LenPrefixedReader.UnmarshalBody {α : Type} (codec : Codec α) (r : LenPrefixedReader)
    (out : α) : (Option Error × α) × LenPrefixedReader :=
  let res := r.ReadRaw
  match res.1.2 with
  | some err => ((some err, out), res.2)
  | none => (codec res.1.1 out, res.2)

/-- A call `r.Unmarshal(out)` on a `LenPrefixedReader`. -/
def LenPrefixedReader.Unmarshal {α : Type} (codec : Codec α) (r : LenPrefixedReader)
    (out : α) : (Option Error × α) × LenPrefixedReader :=
  let res := LenPrefixedReader.UnmarshalBody codec r out
  (res.1, { r with scn := res.2.scn })

/-- Body of `func (r SeqReader) Unmarshal(out interface{}) error` on the receiver
copy `r`, which calls `r.ReadRaw()` and then `json.Unmarshal(o, &out)`. -/
def SeqReader.UnmarshalBody {α : Type} (codec : Codec α) (r : SeqReader) (out : α) :
    (Option Error × α) × SeqReader :=
  let res := r.ReadRaw
  match res.1.2 with
  | some err => ((some err, out), res.2)
  | none => (codec res.1.1 out, res.2)

/-- A call `r.Unmarshal(out)` on a `SeqReader`. -/
def SeqReader.Unmarshal {α : Type} (codec : Codec α) (r : SeqReader) (out : α) :
    (Option Error × α) × SeqReader :=
  let res := SeqReader.UnmarshalBody codec r out
  (res.1, { r with scn := res.2.scn })

/-! ## concat.go: concatenated framing -/

/-- A `*json.Decoder` whose state has type `δ`, as the `ConcatReader` uses it:
`DecodeRaw` is `Decode(&m)` for a `json.RawMessage` `m` and returns the bytes of
`m` and the error; `Decode` is `Decode(out)` for an output of type `α` and
returns the error and the value `out` holds afterwards. -/
structure Decoder (δ α : Type) where
  DecodeRaw : δ → (List Byte × Option Error) × δ
  Decode : δ → α → (Option Error × α) × δ

/-- The struct `ConcatReader`; the state of the decoder behind the pointer `d` is
threaded separately. -/
structure ConcatReader (δ α : Type) where
  d : Decoder δ α
  err : Option Error

/-- `NewConcatReader`. -/
def NewConcatReader {δ α : Type} (d : Decoder δ α) : ConcatReader δ α :=
  { d := d, err := none }

/-- Body of `func (r ConcatReader) ReadRaw() ([]byte, error)` on the receiver copy
`r`: returns the Go result pair, the final receiver copy and the decoder state. -/
def ConcatReader.ReadRawBody {δ α : Type} (r : ConcatReader δ α) (st : δ) :
    (List Byte × Option Error) × ConcatReader δ α × δ :=
  match r.err with
  | some err => (([], some err), r, st)
  | none =>
    let res := r.d.DecodeRaw st
    let r1 := { r with err := res.1.2 }
    match r1.err with
    | some err => (([], some err), r1, res.2)
    | none => ((res.1.1, none), r1, res.2)

/-- A call `r.ReadRaw()`: the receiver is passed by value, so the caller's `err`
field is what it was; the decoder behind the pointer field is shared. -/
def ConcatReader.ReadRaw {δ α : Type} (r : ConcatReader δ α) (st : δ) :
    (List Byte × Option Error) × ConcatReader δ α × δ :=
  let res := r.ReadRawBody st
  (res.1, r, res.2.2)

/-- Body of `func (r ConcatReader) Unmarshal(out interface{}) error` on the receiver
copy `r`. -/
def ConcatReader.UnmarshalBody {δ α : Type} (r : ConcatReader δ α) (out : α) (st : δ) :
    (Option Error × α) × ConcatReader δ α × δ :=
  match r.err with
  | some err => ((some err, out), r, st)
  | none =>
    let res := r.d.Decode st out
    let r1 := { r with err := res.1.1 }
    ((r1.err, res.1.2), r1, res.2)

/-- A call `r.Unmarshal(out)` on a `ConcatReader`. -/
def ConcatReader.Unmarshal {δ α : Type} (r : ConcatReader δ α) (out : α) (st : δ) :
    (Option Error × α) × ConcatReader δ α × δ :=
  let res := r.UnmarshalBody out st
  (res.1, r, res.2.2)

/-- One top-level JSON value of an input stream, as a `json.Decoder` meets it:
its bytes; the error `Decode(out)` returns when the value is well-formed but does
not fit the type of `out` (`none` when it fits); and what such a failing
`Decode(out)` has stored in `out` all the same, the parts of the value that fit
(`none` when nothing fits and `out` is left as it was). -/
structure StreamValue where
  raw : List Byte
  typeErr : Option Error
  kept : Option (List Byte)
  deriving DecidableEq

/-- State of a `json.Decoder` over an in-memory stream: the values not yet read,
the error met after them (`io.EOF` at a clean end, a syntax error before
malformed bytes) and the sticky field `dec.err`. -/
structure DecoderState where
  pending : List StreamValue
  tailErr : Error
  err : Option Error
  deriving DecidableEq

/-- The behaviour of `(*json.Decoder).Decode` in `encoding/json`: a read or syntax
error is stored in `dec.err` and returned by every later call; an error of
storing a complete value into `out` is returned but not stored, the value is
consumed and `out` holds the parts that fit.  The value decoded into `out` is
represented by its bytes. -/
def jsonDecoder : Decoder DecoderState (List Byte) where
  DecodeRaw st :=
    match st.err with
    | some err => (([], some err), st)
    | none =>
      match st.pending with
      | [] => (([], some st.tailErr), { st with err := some st.tailErr })
      | v :: rest => ((v.raw, none), { st with pending := rest })
  Decode st out :=
    match st.err with
    | some err => ((some err, out), st)
    | none =>
      match st.pending with
      | [] => ((some st.tailErr, out), { st with err := some st.tailErr })
      | v :: rest =>
        match v.typeErr with
        | some err =>
          match v.kept with
          | some stored => ((some err, stored), { st with pending := rest })
          | none => ((some err, out), { st with pending := rest })
        | none => ((none, v.raw), { st with pending := rest })

/-! ## api.go: the Reader interface and the bulk helpers -/

/-- A value of the interface `Reader` whose state has type `ρ`, as the bulk
helpers use it (they call `ReadRaw` only). -/
structure Reader (ρ : Type) where
  ReadRaw : ρ → (List Byte × Option Error) × ρ

/-- The results of `n` successive `ReadRaw` calls on one `Reader`. -/
def Reader.readN {ρ : Type} (r : Reader ρ) : Nat → ρ → List (List Byte × Option Error) × ρ
  | 0, st => ([], st)
  | n + 1, st =>
    let res := r.ReadRaw st
    let more := Reader.readN r n res.2
    (res.1 :: more.1, more.2)

/-- The reader `r` with a counter of the `ReadRaw` calls made on it. -/
def Reader.counted {ρ : Type} (r : Reader ρ) : Reader (ρ × Nat) :=
  ⟨fun st => ((r.ReadRaw st.1).1, ((r.ReadRaw st.1).2, st.2 + 1))⟩

/-- A `SeqReader` as a `Reader`. -/
def SeqReader.asReader : Reader SeqReader := ⟨SeqReader.ReadRaw⟩

/-- The loop `for { ... }` of `ReadRawAll` with at most `fuel` iterations; `out` is
the local of that name.  `none` when the fuel runs out. -/
def ReadRawAll.loop {ρ : Type} (r : Reader ρ) :
    Nat → ρ → List (List Byte) → Option ((List (List Byte) × Option Error) × ρ)
  | 0, _, _ => none
  | fuel + 1, st, out =>
    let res := r.ReadRaw st
    match res.1.2 with
    | some err =>
      if err = Error.EOF then some ((out, none), res.2)
      else some ((out, some err), res.2)
    | none => ReadRawAll.loop r fuel res.2 (out ++ [res.1.1])

/-- `func ReadRawAll(r Reader) ([][]byte, error)`. -/
def ReadRawAll {ρ : Type} (r : Reader ρ) (fuel : Nat) (st : ρ) :
    Option ((List (List Byte) × Option Error) × ρ) :=
  ReadRawAll.loop r fuel st []

/-- The argument `out interface{}` of `UnmarshalAll`, by what `reflect` finds in it. -/
inductive OutArg (α : Type) where
  /-- The `nil` interface: `reflect.ValueOf(out).Kind()` is `reflect.Invalid`. -/
  | nilInterface
  /-- A value whose kind is not `reflect.Ptr`. -/
  | nonPointer
  /-- A pointer whose element kind is not `reflect.Slice`. -/
  | ptrToNonSlice
  /-- A nil pointer whose type is pointer to slice, as `(*[]T)(nil)`: its kind is
  `reflect.Ptr` and its element kind `reflect.Slice`, and `ptr.Elem()` is the zero
  `reflect.Value`. -/
  | nilPtrToSlice
  /-- A non-nil pointer to a slice holding `xs`. -/
  | ptrToSlice (xs : List α)

/-- How a call ends that may panic: it returns `b`, or it panics with the reader in
state `st`. -/
inductive Outcome (β ρ : Type) where
  /-- The call returns `b`. -/
  | returned (b : β)
  /-- The call panics; `st` is the state of the reader at that point. -/
  | panicked (st : ρ)

/-- The loop `for { ... }` of `UnmarshalAll` with at most `fuel` iterations, on the
slice `xs` that `out` points to; `zero` is the value of `reflect.New(elemType)`. -/
def UnmarshalAll.loop {ρ α : Type} (r : Reader ρ) (codec : Codec α) (zero : α) :
    Nat → ρ → List α → Option ((Option Error × List α) × ρ)
  | 0, _, _ => none
  | fuel + 1, st, xs =>
    let res := r.ReadRaw st
    match res.1.2 with
    | some err =>
      if err = Error.EOF then some ((none, xs), res.2)
      else some ((some err, xs), res.2)
    | none =>
      let dec := codec res.1.1 zero
      match dec.1 with
      | some err => some ((some err, xs), res.2)
      | none => UnmarshalAll.loop r codec zero fuel res.2 (xs ++ [dec.2])

/-- The loop `for { ... }` of `UnmarshalAll` with at most `fuel` iterations when
`out` is a nil pointer to a slice: the first document that decodes reaches
`reflect.Append(ptr.Elem(), el.Elem())` with `ptr.Elem()` the zero
`reflect.Value`, which panics. -/
def UnmarshalAll.nilLoop {ρ α : Type} (r : Reader ρ) (codec : Codec α) (zero : α) :
    Nat → ρ → Option (Outcome (Option Error × ρ) ρ)
  | 0, _ => none
  | _ + 1, st =>
    let res := r.ReadRaw st
    match res.1.2 with
    | some err =>
      if err = Error.EOF then some (.returned (none, res.2))
      else some (.returned (some err, res.2))
    | none =>
      let dec := codec res.1.1 zero
      match dec.1 with
      | some err => some (.returned (some err, res.2))
      | none => some (.panicked res.2)

/-- `func UnmarshalAll(r Reader, out interface{}) error`: how the call ends (`none`
when the fuel runs out) and, when it returns, the error, `out` afterwards and the
reader state.  The two `reflect` checks come first: `ptr.Kind() != reflect.Ptr`
holds of the `nil` interface and of a non-pointer, `ptrElem.Kind() != reflect.Slice`
of a pointer to a non-slice; a pointer to a slice, nil or not, enters the loop. -/
def UnmarshalAll {ρ α : Type} (r : Reader ρ) (codec : Codec α) (zero : α) (fuel : Nat)
    (out : OutArg α) (st : ρ) : Option (Outcome ((Option Error × OutArg α) × ρ) ρ) :=
  match out with
  | .nilInterface => some (.returned ((some Error.PointerRequired, out), st))
  | .nonPointer => some (.returned ((some Error.PointerRequired, out), st))
  | .ptrToNonSlice => some (.returned ((some Error.NotASlice, out), st))
  | .nilPtrToSlice =>
    match UnmarshalAll.nilLoop r codec zero fuel st with
    | none => none
    | some (.returned res) => some (.returned ((res.1, out), res.2))
    | some (.panicked st1) => some (.panicked st1)
  | .ptrToSlice xs =>
    match UnmarshalAll.loop r codec zero fuel st xs with
    | none => none
    | some res => some (.returned ((res.1.1, OutArg.ptrToSlice res.1.2), res.2))

/-- The separator-terminated segments of `input`: `input` split on `sep`, the
final, unterminated segment left out. -/
def terminatedSegments (sep : Byte) (input : List Byte) : List (List Byte) :=
  (input.splitOn sep).dropLast

/-- `ReadRaw` followed by the codec: the error of the read when it failed, the
result of `json.Unmarshal` on the bytes read otherwise. -/
def decodeAfterRead {α : Type} (codec : Codec α) (res : List Byte × Option Error) (out : α) :
    Option Error × α :=
  match res.2 with
  | some err => (some err, out)
  | none => codec res.1 out

/-- A sample codec: it accepts the documents that begin with `{` and stores their
bytes, and rejects every other document. -/
def braceCodec : Codec (List Byte) :=
  fun o out => if o.head? = some 123 then (none, o) else (some (Error.Json 0), out)

/-! ## Sample documents -/

/-- The bytes of `{"a":1}`. -/
def docA : List Byte := [123, 34, 97, 34, 58, 49, 125]

/-- The bytes of `{"b":2}`. -/
def docB : List Byte := [123, 34, 98, 34, 58, 50, 125]

/-- The stream `"x"{"a":1}` before a `json.Decoder` whose `Decode(out)` is given a
pointer to an `int`: the string `"x"` is a complete value that does not fit, and
no part of it is stored. -/
def mismatchStream : DecoderState :=
  { pending := [⟨[34, 120, 34], some (Error.Json 1), none⟩, ⟨docA, none, none⟩],
    tailErr := Error.EOF, err := none }

/-! ## Theorems -/

/-! ### Decimal representation -/

theorem digitsValue_append_single (ds : List Byte) (x : Byte) :
    digitsValue (ds ++ [x]) = digitsValue ds * 10 + (x - 48) := by
  simp [digitsValue, List.foldl_append]

theorem itoaAux_spec (fuel : Nat) : ∀ (n : Nat) (acc : List Byte), n < fuel →
    ∃ ds : List Byte, itoaAux fuel n acc = ds ++ acc ∧ ds ≠ [] ∧
      ds.all isDigit = true ∧ digitsValue ds = n := by
  induction fuel with
  | zero => intro n acc h; omega
  | succ fuel ih =>
    intro n acc h
    by_cases hn : n < 10
    · refine ⟨[48 + n], ?_, by simp, ?_, ?_⟩
      · simp [itoaAux, hn]
      · simp only [List.all_cons, List.all_nil, isDigit, Bool.and_true, Bool.and_eq_true,
          decide_eq_true_eq, Byte]
        omega
      · simp [digitsValue]
    · have hlt : n / 10 < fuel := by omega
      obtain ⟨ds, h1, _, h3, h4⟩ := ih (n / 10) ((48 + n % 10) :: acc) hlt
      refine ⟨ds ++ [48 + n % 10], ?_, by simp, ?_, ?_⟩
      · simp [itoaAux, hn, h1]
      · simp only [List.all_append, h3, Bool.true_and]
        simp only [List.all_cons, List.all_nil, isDigit, Bool.and_true, Bool.and_eq_true,
          decide_eq_true_eq, Byte]
        omega
      · rw [digitsValue_append_single, h4]
        have : 48 + n % 10 - 48 = n % 10 := by omega
        omega

theorem Itoa_ne_nil (n : Nat) : Itoa n ≠ [] := by
  obtain ⟨ds, h1, h2, _, _⟩ := itoaAux_spec (n + 1) n [] (by omega)
  simpa [Itoa, h1] using h2

theorem Itoa_all_isDigit (n : Nat) : (Itoa n).all isDigit = true := by
  obtain ⟨ds, h1, _, h3, _⟩ := itoaAux_spec (n + 1) n [] (by omega)
  simpa [Itoa, h1] using h3

theorem digitsValue_Itoa (n : Nat) : digitsValue (Itoa n) = n := by
  obtain ⟨ds, h1, _, _, h4⟩ := itoaAux_spec (n + 1) n [] (by omega)
  simpa [Itoa, h1] using h4

theorem Atoi_Itoa (n : Nat) (h : n ≤ maxInt) : Atoi (Itoa n) = .ok (n : Int) := by
  simp [Atoi, Itoa_ne_nil, Itoa_all_isDigit n, digitsValue_Itoa, h]

/-! ### The length-prefixed reader on well-formed records -/

theorem lp_scan_digits (e re : Option Error) (ds : List Byte) :
    ∀ (tail sz out : List Byte) (len : Int), ds.all isDigit = true →
      LenPrefixedReader.scanLoop e re (ds ++ tail) sz out true len =
        LenPrefixedReader.scanLoop e re tail (sz ++ ds) out true len := by
  induction ds with
  | nil => intro tail sz out len _; simp
  | cons c ds ih =>
    intro tail sz out len h
    simp only [List.all_cons, Bool.and_eq_true] at h
    simp only [List.cons_append, LenPrefixedReader.scanLoop, h.1, if_true]
    have := ih tail (sz ++ [c]) out len h.2
    simpa using this

theorem lp_scan_body (e re : Option Error) (body : List Byte) :
    ∀ (rest sz out : List Byte) (len : Int), body ≠ [] → len = (body.length : Int) →
      LenPrefixedReader.scanLoop e re (body ++ rest) sz out false len =
        ((out ++ body, none), ⟨rest, e⟩, re) := by
  induction body with
  | nil => intro rest sz out len h; exact absurd rfl h
  | cons c body ih =>
    intro rest sz out len _ hlen
    have hpos : len > 0 := by simp at hlen; omega
    by_cases hb : body = []
    · subst hb
      have h1 : len - 1 = 0 := by simp at hlen; omega
      simp [LenPrefixedReader.scanLoop, hpos, h1]
    · have hlen2 : len - 1 = (body.length : Int) := by simp at hlen; omega
      have h1 : ¬ (len - 1 = 0) := by
        have : 0 < body.length := List.length_pos.mpr hb
        omega
      simp only [List.cons_append, LenPrefixedReader.scanLoop, hpos, h1, if_true, if_false,
        Bool.false_eq_true]
      have := ih rest sz (out ++ [c]) (len - 1) hb hlen2
      simpa using this

theorem lp_scan_record (e re : Option Error) (d rest : List Byte) (h2 : 2 ≤ d.length)
    (hmax : d.length ≤ maxInt) (hd : ∀ c ∈ d.head?, isDigit c = false) :
    LenPrefixedReader.scanLoop e re (Itoa d.length ++ d ++ rest) [] [] true 0 =
      ((d, none), ⟨rest, e⟩, re) := by
  match d, h2, hmax, hd with
  | c :: body, h2, hmax, hd =>
    have hc : isDigit c = false := hd c (by simp)
    have hb : body ≠ [] := by
      intro hb; subst hb; simp at h2
    rw [List.append_assoc, lp_scan_digits e re _ _ _ _ _ (Itoa_all_isDigit _)]
    simp only [List.nil_append, List.cons_append, LenPrefixedReader.scanLoop, hc, if_true,
      Bool.false_eq_true, if_false, Atoi_Itoa _ hmax]
    have hlen : ((c :: body).length : Int) - 1 = (body.length : Int) := by simp
    have := lp_scan_body e re body rest [] [c] _ hb hlen
    simpa using this

theorem lp_ReadRaw_record (e : Option Error) (d rest : List Byte) (h2 : 2 ≤ d.length)
    (hmax : d.length ≤ maxInt) (hd : ∀ c ∈ d.head?, isDigit c = false) :
    LenPrefixedReader.ReadRaw ⟨⟨Itoa d.length ++ d ++ rest, e⟩, none⟩ =
      ((d, none), ⟨⟨rest, e⟩, none⟩) := by
  have h := lp_scan_record e none d rest h2 hmax hd
  simp only [LenPrefixedReader.ReadRaw, LenPrefixedReader.ReadRawBody, h]

theorem lp_readN_records (docs : List (List Byte)) :
    (∀ d ∈ docs, 2 ≤ d.length ∧ d.length ≤ maxInt ∧ ∀ c ∈ d.head?, isDigit c = false) →
    LenPrefixedReader.readN (docs.length + 1) (NewLenPrefixedReader (lenPrefixed docs)) =
      (expectedReads docs, NewLenPrefixedReader []) := by
  induction docs with
  | nil =>
    intro _
    simp [LenPrefixedReader.readN, NewLenPrefixedReader, lenPrefixed, expectedReads,
      LenPrefixedReader.ReadRaw, LenPrefixedReader.ReadRawBody, LenPrefixedReader.scanLoop,
      Scanner.ofBytes, Scanner.Err]
  | cons d ds ih =>
    intro h
    obtain ⟨h2, hmax, hd⟩ := h d (by simp)
    have ih2 := ih (fun x hx => h x (by simp [hx]))
    have hstream : lenPrefixed (d :: ds) = Itoa d.length ++ d ++ lenPrefixed ds := by
      simp [lenPrefixed]
    have hread := lp_ReadRaw_record none d (lenPrefixed ds) h2 hmax hd
    simp only [NewLenPrefixedReader, Scanner.ofBytes] at ih2 ⊢
    rw [List.length_cons, LenPrefixedReader.readN, hstream, hread]
    simp only [ih2]
    simp [expectedReads]

/-! ### The length-prefixed writer on an accepting sink -/

theorem lp_WriteRaw_buffer (data s : List Byte) (h : data ≠ []) :
    (NewLenPrefixedWriter bytesBuffer).WriteRaw data s =
      (none, s ++ Itoa data.length ++ data) := by
  have hlen : data.length ≠ 0 := by simpa using h
  simp [LenPrefixedWriter.WriteRaw, NewLenPrefixedWriter, bytesBuffer, hlen]

theorem lp_writeDocs_buffer (docs : List (List Byte)) :
    ∀ s : List Byte, (∀ d ∈ docs, d ≠ []) →
      (NewLenPrefixedWriter bytesBuffer).writeDocs docs s = (none, s ++ lenPrefixed docs) := by
  induction docs with
  | nil => intro s _; simp [LenPrefixedWriter.writeDocs, lenPrefixed]
  | cons d ds ih =>
    intro s h
    have hd := lp_WriteRaw_buffer d s (h d (by simp))
    have ih2 := ih (s ++ Itoa d.length ++ d) (fun x hx => h x (by simp [hx]))
    simp only [LenPrefixedWriter.writeDocs, hd, ih2]
    simp [lenPrefixed]

/-! ### The length-prefixed reader on a truncated record -/

theorem lp_scan_short_body (re : Option Error) (body : List Byte) :
    ∀ (sz out : List Byte) (len : Int), (body.length : Int) < len →
      LenPrefixedReader.scanLoop none re body sz out false len =
        (([], some Error.EOF), ⟨[], none⟩, re) := by
  induction body with
  | nil => intro sz out len _; simp [LenPrefixedReader.scanLoop, Scanner.Err]
  | cons c body ih =>
    intro sz out len h
    have hlen : ((c :: body).length : Int) = (body.length : Int) + 1 := by simp
    have hpos : len > 0 := by omega
    have h1 : ¬ (len - 1 = 0) := by omega
    simp only [LenPrefixedReader.scanLoop, hpos, h1, if_true, if_false, Bool.false_eq_true]
    exact ih sz (out ++ [c]) (len - 1) (by omega)

theorem Atoi_ok_all_isDigit (ds : List Byte) (n : Int) (h : Atoi ds = .ok n) :
    ds.all isDigit = true := by
  unfold Atoi at h
  by_cases h1 : ds = []
  · simp [h1] at h
  · by_cases h2 : ds.all isDigit = true
    · exact h2
    · simp [h1, h2] at h

/-! ### The record-separator reader on separator-terminated documents -/

theorem seq_scan_doc (sep : Byte) (e : Option Error) (d : List Byte) :
    ∀ (rest out : List Byte), sep ∉ d →
      SeqReader.scanLoop sep e (d ++ sep :: rest) out = ((out ++ d, none), ⟨rest, e⟩) := by
  induction d with
  | nil => intro rest out _; simp [SeqReader.scanLoop]
  | cons c d ih =>
    intro rest out h
    have hc : ¬ (c = sep) := by
      intro hc; exact h (by simp [hc])
    have hd : sep ∉ d := by
      intro hd; exact h (by simp [hd])
    simp only [List.cons_append, SeqReader.scanLoop, hc, if_false]
    have := ih rest (out ++ [c]) hd
    simpa using this

theorem seq_ReadRaw_doc (sep : Byte) (e : Option Error) (d rest : List Byte) (h : sep ∉ d) :
    SeqReader.ReadRaw ⟨sep, ⟨d ++ sep :: rest, e⟩⟩ = ((d, none), ⟨sep, ⟨rest, e⟩⟩) := by
  have hs := seq_scan_doc sep e d rest [] h
  simp only [SeqReader.ReadRaw, SeqReader.ReadRawBody, hs, List.nil_append]

theorem seq_readN_terminated (sep : Byte) (docs : List (List Byte)) :
    (∀ d ∈ docs, sep ∉ d) →
    SeqReader.readN (docs.length + 1) (NewSeqReaderWithSep (sepTerminated sep docs) sep) =
      (expectedReads docs, NewSeqReaderWithSep [] sep) := by
  induction docs with
  | nil =>
    intro _
    simp [SeqReader.readN, NewSeqReaderWithSep, NewSeqReader, sepTerminated, expectedReads,
      SeqReader.ReadRaw, SeqReader.ReadRawBody, SeqReader.scanLoop, Scanner.ofBytes,
      Scanner.Err]
  | cons d ds ih =>
    intro h
    have ih2 := ih (fun x hx => h x (by simp [hx]))
    have hstream : sepTerminated sep (d :: ds) = d ++ sep :: sepTerminated sep ds := by
      simp [sepTerminated]
    have hread := seq_ReadRaw_doc sep none d (sepTerminated sep ds) (h d (by simp))
    simp only [NewSeqReaderWithSep, NewSeqReader, Scanner.ofBytes] at ih2 ⊢
    rw [List.length_cons, SeqReader.readN, hstream, hread]
    simp only [ih2]
    simp [expectedReads]

/-! ### The buffered writer over an accepting sink -/

theorem buf_Flush_buffer (b : BufWriter (List Byte)) (s : List Byte)
    (hw : b.wr = bytesBuffer) (he : b.err = none) :
    b.Flush s = (none, { b with buf := [] }, s ++ b.buf) := by
  by_cases hn : b.buf.length = 0
  · have hnil : b.buf = [] := List.length_eq_zero.mp hn
    cases b with
    | mk wr buf size err =>
      simp only at hw he hnil
      subst hw he hnil
      simp [BufWriter.Flush]
  · simp [BufWriter.Flush, he, hn, hw, bytesBuffer]

theorem buf_WriteByte_buffer (b : BufWriter (List Byte)) (c : Byte) (s : List Byte)
    (hw : b.wr = bytesBuffer) (he : b.err = none) :
    ∃ b1 s1, b.WriteByte c s = (none, b1, s1) ∧ b1.wr = bytesBuffer ∧ b1.err = none ∧
      s1 ++ b1.buf = s ++ b.buf ++ [c] := by
  by_cases hfull : b.size - b.buf.length ≤ 0
  · refine ⟨{ b with buf := [c] }, s ++ b.buf, ?_, hw, he, by simp⟩
    simp [BufWriter.WriteByte, he, hfull, buf_Flush_buffer b s hw he]
  · refine ⟨{ b with buf := b.buf ++ [c] }, s, ?_, hw, he, by simp⟩
    simp [BufWriter.WriteByte, he, hfull]

theorem line_writeLoop_buffer (data : List Byte) :
    ∀ (b : BufWriter (List Byte)) (s : List Byte), b.wr = bytesBuffer → b.err = none →
      ∃ b1 s1, LineWriter.writeLoop b data s = (none, b1, s1) ∧ b1.wr = bytesBuffer ∧
        b1.err = none ∧ s1 ++ b1.buf = s ++ b.buf ++ data.filter (fun c => decide (c ≠ 10)) := by
  induction data with
  | nil => intro b s hw he; exact ⟨b, s, by simp [LineWriter.writeLoop], hw, he, by simp⟩
  | cons c data ih =>
    intro b s hw he
    by_cases hc : c = 10
    · obtain ⟨b1, s1, h1, h2, h3, h4⟩ := ih b s hw he
      exact ⟨b1, s1, by simp [LineWriter.writeLoop, hc, h1], h2, h3, by simp [hc, h4]⟩
    · obtain ⟨b0, s0, g1, g2, g3, g4⟩ := buf_WriteByte_buffer b c s hw he
      obtain ⟨b1, s1, h1, h2, h3, h4⟩ := ih b0 s0 g2 g3
      refine ⟨b1, s1, ?_, h2, h3, ?_⟩
      · simp [LineWriter.writeLoop, hc, g1, h1]
      · rw [h4, g4]; simp [hc]

theorem line_WriteRaw_buffer (data s : List Byte) :
    (NewLineWriter bytesBuffer).WriteRaw data s =
      (none, s ++ (data.filter (fun c => decide (c ≠ 10)) ++ [10])) := by
  obtain ⟨b1, s1, h1, h2, h3, h4⟩ :=
    line_writeLoop_buffer data (BufWriter.New bytesBuffer) s rfl rfl
  obtain ⟨b2, s2, g1, g2, g3, g4⟩ := buf_WriteByte_buffer b1 10 s1 h2 h3
  have hf := buf_Flush_buffer b2 s2 g2 g3
  simp only [LineWriter.WriteRaw, NewLineWriter, h1, g1, hf, g4, h4]
  simp [BufWriter.New]

theorem seq_writeDocs_buffer (sep : Byte) (docs : List (List Byte)) :
    ∀ s : List Byte,
      (NewSeqWriterSep bytesBuffer sep).writeDocs docs s = (none, s ++ docs.flatten) := by
  induction docs with
  | nil => intro s; simp [SeqWriter.writeDocs]
  | cons d ds ih =>
    intro s
    have hw : (NewSeqWriterSep bytesBuffer sep).WriteRaw d s =
        (none, NewSeqWriterSep bytesBuffer sep, s ++ d) := by
      simp [SeqWriter.WriteRaw, SeqWriter.WriteRawBody, NewSeqWriterSep, bytesBuffer]
    simp only [SeqWriter.writeDocs, hw, ih]
    simp

theorem count_newline_record (data : List Byte) :
    (data.filter (fun c => decide (c ≠ 10)) ++ [10]).count 10 = 1 := by
  have h : (data.filter (fun c => decide (c ≠ 10))).count 10 = 0 := by
    rw [List.count_eq_zero]
    simp [List.mem_filter]
  rw [List.count_append, h]
  simp

/-! ### The line scanner -/

theorem scanLine_found (d : List Byte) :
    ∀ (room : Nat) (rest acc : List Byte), 10 ∉ d → d.length < room →
      scanLine room (d ++ 10 :: rest) acc = some (acc ++ d, rest) := by
  induction d with
  | nil =>
    intro room rest acc _ h
    obtain ⟨k, rfl⟩ : ∃ k, room = k + 1 := ⟨room - 1, by simp at h; omega⟩
    simp [scanLine]
  | cons c d ih =>
    intro room rest acc hmem h
    obtain ⟨k, rfl⟩ : ∃ k, room = k + 1 := ⟨room - 1, by simp at h; omega⟩
    have hc : ¬ (c = 10) := by
      intro hc; exact hmem (by simp [hc])
    have hd : 10 ∉ d := by
      intro hd; exact hmem (by simp [hd])
    simp only [List.cons_append, scanLine, hc, if_false]
    have := ih k rest (acc ++ [c]) hd (by simp at h; omega)
    simpa using this

theorem scanLine_beyond (d : List Byte) :
    ∀ (room : Nat) (rest acc : List Byte), 10 ∉ d → room ≤ d.length →
      scanLine room (d ++ rest) acc = none := by
  induction d with
  | nil =>
    intro room rest acc _ h
    have : room = 0 := by simpa using h
    subst this
    cases rest <;> simp [scanLine]
  | cons c d ih =>
    intro room rest acc hmem h
    have hc : ¬ (c = 10) := by
      intro hc; exact hmem (by simp [hc])
    have hd : 10 ∉ d := by
      intro hd; exact hmem (by simp [hd])
    cases room with
    | zero => simp [scanLine]
    | succ k =>
      simp only [List.cons_append, scanLine, hc, if_false]
      have := ih k rest (acc ++ [c]) hd (by simp at h; omega)
      simpa using this

theorem dropCR_eq_self (d : List Byte) (h : d.getLast? ≠ some 13) : dropCR d = d := by
  simp [dropCR, h]

theorem line_ReadRaw_doc (e : Option Error) (d rest : List Byte) (hnl : 10 ∉ d)
    (hcr : d.getLast? ≠ some 13) (hlen : d.length < maxScanTokenSize) :
    LineReader.ReadRaw ⟨⟨d ++ 10 :: rest, e, false⟩⟩ = ((d, none), ⟨⟨rest, e, false⟩⟩) := by
  have hs := scanLine_found d maxScanTokenSize rest [] hnl hlen
  simp [LineReader.ReadRaw, LineScanner.Scan, hs, dropCR_eq_self d hcr]

theorem line_readN_docs (docs : List (List Byte)) :
    (∀ d ∈ docs, 10 ∉ d ∧ d.getLast? ≠ some 13 ∧ d.length < maxScanTokenSize) →
    LineReader.readN (docs.length + 1)
        (NewLineReader ((docs.map (fun d => d ++ [10])).flatten)) =
      (expectedReads docs, NewLineReader []) := by
  induction docs with
  | nil =>
    intro _
    decide
  | cons d ds ih =>
    intro h
    obtain ⟨hnl, hcr, hlen⟩ := h d (by simp)
    have ih2 := ih (fun x hx => h x (by simp [hx]))
    have hread := line_ReadRaw_doc none d ((ds.map (fun d => d ++ [10])).flatten) hnl hcr hlen
    simp only [NewLineReader, LineScanner.ofBytes] at ih2 ⊢
    have hstream : ((d :: ds).map (fun d => d ++ [10])).flatten =
        d ++ 10 :: (ds.map (fun d => d ++ [10])).flatten := by simp
    rw [List.length_cons, LineReader.readN, hstream, hread]
    simp only [ih2]
    simp [expectedReads]

theorem filter_newline_eq_self (d : List Byte) (h : 10 ∉ d) :
    d.filter (fun c => decide (c ≠ 10)) = d := by
  rw [List.filter_eq_self]
  intro c hc
  have : c ≠ 10 := by
    intro h10; exact h (h10 ▸ hc)
  simpa using this

theorem line_writeDocs_buffer (docs : List (List Byte)) :
    ∀ s : List Byte, (∀ d ∈ docs, 10 ∉ d) →
      (NewLineWriter bytesBuffer).writeDocs docs s =
        (none, s ++ (docs.map (fun d => d ++ [10])).flatten) := by
  induction docs with
  | nil => intro s _; simp [LineWriter.writeDocs]
  | cons d ds ih =>
    intro s h
    have hd := line_WriteRaw_buffer d s
    rw [filter_newline_eq_self d (h d (by simp))] at hd
    have ih2 := ih (s ++ (d ++ [10])) (fun x hx => h x (by simp [hx]))
    simp only [LineWriter.writeDocs, hd, ih2]
    simp

theorem line_ReadRaw_too_long (e : Option Error) (d rest : List Byte) (hnl : 10 ∉ d)
    (hlen : maxScanTokenSize ≤ d.length) :
    (LineReader.ReadRaw ⟨⟨d ++ rest, e, false⟩⟩).1 = ([], some Error.TooLong) := by
  have hs := scanLine_beyond d maxScanTokenSize rest [] hnl hlen
  have hl : maxScanTokenSize ≤ d.length + rest.length := by omega
  simp [LineReader.ReadRaw, LineScanner.Scan, hs, hl, LineScanner.Err]

theorem line_long_doc (n : Nat) (hn : maxScanTokenSize ≤ n) :
    (NewLineWriter bytesBuffer).writeDocs [List.replicate n 97] [] =
        (none, List.replicate n 97 ++ [10]) ∧
      (NewLineReader (List.replicate n 97 ++ [10])).ReadRaw.1 = ([], some Error.TooLong) := by
  have hnl : (10 : Byte) ∉ List.replicate n (97 : Byte) := by
    intro h
    have h2 : (10 : Nat) = 97 := List.eq_of_mem_replicate h
    omega
  constructor
  · have := line_writeDocs_buffer [List.replicate n 97] [] (by simp [hnl])
    simpa using this
  · exact line_ReadRaw_too_long none (List.replicate n 97) [10] hnl (by simpa using hn)

/-! ### The bulk helpers -/

theorem Reader.readN_counted {ρ : Type} (r : Reader ρ) (n : Nat) :
    ∀ (st : ρ) (c : Nat),
      Reader.readN r.counted n (st, c) =
        ((Reader.readN r n st).1, ((Reader.readN r n st).2, c + n)) := by
  induction n with
  | zero => intro st c; simp [Reader.readN]
  | succ n ih =>
    intro st c
    have hstep : r.counted.ReadRaw (st, c) = ((r.ReadRaw st).1, ((r.ReadRaw st).2, c + 1)) :=
      rfl
    have hc : c + 1 + n = c + (n + 1) := by omega
    simp only [Reader.readN, hstep, ih, hc]

theorem ReadRawAll_loop_spec {ρ : Type} (r : Reader ρ) (docs : List (List Byte)) :
    ∀ (st : ρ) (out : List (List Byte)) (fuel : Nat) (x : List Byte) (e : Error),
      (Reader.readN r (docs.length + 1) st).1 =
        docs.map (fun d => (d, none)) ++ [(x, some e)] →
      docs.length + 1 ≤ fuel →
      ReadRawAll.loop r fuel st out =
        some ((out ++ docs, if e = Error.EOF then none else some e),
          (Reader.readN r (docs.length + 1) st).2) := by
  induction docs with
  | nil =>
    intro st out fuel x e h hf
    obtain ⟨k, rfl⟩ : ∃ k, fuel = k + 1 := ⟨fuel - 1, by simp at hf; omega⟩
    have h1 : (r.ReadRaw st).1 = (x, some e) := by
      simpa [Reader.readN] using h
    by_cases he : e = Error.EOF
    · simp [ReadRawAll.loop, Reader.readN, h1, he]
    · simp [ReadRawAll.loop, Reader.readN, h1, he]
  | cons d ds ih =>
    intro st out fuel x e h hf
    obtain ⟨k, rfl⟩ : ∃ k, fuel = k + 1 := ⟨fuel - 1, by simp at hf; omega⟩
    have hsplit : (r.ReadRaw st).1 = (d, none) ∧
        (Reader.readN r (ds.length + 1) (r.ReadRaw st).2).1 =
          ds.map (fun d => (d, none)) ++ [(x, some e)] := by
      rw [List.length_cons, Reader.readN] at h
      simpa using h
    have ih2 := ih (r.ReadRaw st).2 (out ++ [d]) k x e hsplit.2 (by simp at hf; omega)
    rw [ReadRawAll.loop]
    simp only [hsplit.1, ih2, List.length_cons]
    simp [Reader.readN]

theorem UnmarshalAll_loop_spec {ρ α : Type} (r : Reader ρ) (codec : Codec α) (zero : α)
    (docs : List (List Byte)) :
    ∀ (vals : List α) (st : ρ) (xs : List α) (fuel : Nat) (x : List Byte),
      (Reader.readN r (docs.length + 1) st).1 =
        docs.map (fun d => (d, none)) ++ [(x, some Error.EOF)] →
      docs.map (fun d => codec d zero) = vals.map (fun v => (none, v)) →
      docs.length + 1 ≤ fuel →
      UnmarshalAll.loop r codec zero fuel st xs =
        some ((none, xs ++ vals), (Reader.readN r (docs.length + 1) st).2) := by
  induction docs with
  | nil =>
    intro vals st xs fuel x h hv hf
    obtain ⟨k, rfl⟩ : ∃ k, fuel = k + 1 := ⟨fuel - 1, by simp at hf; omega⟩
    have h1 : (r.ReadRaw st).1 = (x, some Error.EOF) := by
      simpa [Reader.readN] using h
    have hvals : vals = [] := by
      cases vals with
      | nil => rfl
      | cons v vs => simp at hv
    simp [UnmarshalAll.loop, Reader.readN, h1, hvals]
  | cons d ds ih =>
    intro vals st xs fuel x h hv hf
    obtain ⟨k, rfl⟩ : ∃ k, fuel = k + 1 := ⟨fuel - 1, by simp at hf; omega⟩
    have hsplit : (r.ReadRaw st).1 = (d, none) ∧
        (Reader.readN r (ds.length + 1) (r.ReadRaw st).2).1 =
          ds.map (fun d => (d, none)) ++ [(x, some Error.EOF)] := by
      rw [List.length_cons, Reader.readN] at h
      simpa using h
    match vals, hv with
    | [], hv => simp at hv
    | v :: vs, hv =>
      have hv1 : codec d zero = (none, v) := by
        simp only [List.map_cons, List.cons.injEq] at hv
        exact hv.1
      have hv2 : ds.map (fun d => codec d zero) = vs.map (fun v => (none, v)) := by
        simp only [List.map_cons, List.cons.injEq] at hv
        exact hv.2
      have ih2 := ih vs (r.ReadRaw st).2 (xs ++ [v]) k x hsplit.2 hv2 (by simp at hf; omega)
      rw [UnmarshalAll.loop]
      simp only [hsplit.1, hv1, ih2, List.length_cons]
      simp [Reader.readN]

/-! ### What a successful length-prefixed read has consumed -/

theorem lp_scan_body_inv (e re : Option Error) (src : List Byte) :
    ∀ (sz out : List Byte) (len : Int) (doc : List Byte) (sc : Scanner) (re2 : Option Error),
      LenPrefixedReader.scanLoop e re src sz out false len = ((doc, none), sc, re2) →
      ∃ body : List Byte, src = body ++ sc.src ∧ doc = out ++ body ∧
        (body.length : Int) = len ∧ body ≠ [] := by
  induction src with
  | nil =>
    intro sz out len doc sc re2 h
    cases e <;> simp [LenPrefixedReader.scanLoop, Scanner.Err] at h
  | cons c rest ih =>
    intro sz out len doc sc re2 h
    by_cases hpos : len > 0
    · by_cases h1 : len - 1 = 0
      · simp only [LenPrefixedReader.scanLoop, hpos, h1, if_true, Bool.false_eq_true,
          if_false, Prod.mk.injEq] at h
        obtain ⟨⟨hdoc, _⟩, hsc, _⟩ := h
        refine ⟨[c], ?_, hdoc.symm, ?_, by simp⟩
        · simp [← hsc]
        · simp; omega
      · simp only [LenPrefixedReader.scanLoop, hpos, h1, if_true, Bool.false_eq_true,
          if_false] at h
        obtain ⟨body, hb1, hb2, hb3, _⟩ := ih sz (out ++ [c]) (len - 1) doc sc re2 h
        refine ⟨c :: body, ?_, ?_, ?_, by simp⟩
        · simp [hb1]
        · simp [hb2]
        · simp; omega
    · simp only [LenPrefixedReader.scanLoop, hpos, Bool.false_eq_true, if_false] at h
      obtain ⟨body, _, _, hb3, hne⟩ := ih sz out len doc sc re2 h
      have : 0 < body.length := List.length_pos.mpr hne
      omega

theorem lp_scan_len_inv (e re : Option Error) (src : List Byte) :
    ∀ (sz out : List Byte) (len : Int) (doc : List Byte) (sc : Scanner) (re2 : Option Error),
      LenPrefixedReader.scanLoop e re src sz out true len = ((doc, none), sc, re2) →
      ∃ (ds : List Byte) (c : Byte) (body : List Byte) (N : Int),
        src = ds ++ c :: body ++ sc.src ∧ ds.all isDigit = true ∧ isDigit c = false ∧
        Atoi (sz ++ ds) = .ok N ∧ doc = out ++ c :: body ∧ (body.length : Int) + 1 = N := by
  induction src with
  | nil =>
    intro sz out len doc sc re2 h
    cases e <;> simp [LenPrefixedReader.scanLoop, Scanner.Err] at h
  | cons c rest ih =>
    intro sz out len doc sc re2 h
    by_cases hc : isDigit c = true
    · simp only [LenPrefixedReader.scanLoop, hc, if_true] at h
      obtain ⟨ds, c2, body, N, h1, h2, h3, h4, h5, h6⟩ := ih (sz ++ [c]) out len doc sc re2 h
      refine ⟨c :: ds, c2, body, N, ?_, ?_, h3, ?_, h5, h6⟩
      · simp [h1]
      · simp [hc, h2]
      · simpa using h4
    · have hc2 : isDigit c = false := by simpa using hc
      cases hA : Atoi sz with
      | error err =>
        simp [LenPrefixedReader.scanLoop, hc2, hA] at h
      | ok n =>
        simp only [LenPrefixedReader.scanLoop, hc2, hA, if_true, Bool.false_eq_true,
          if_false] at h
        obtain ⟨body, hb1, hb2, hb3, _⟩ := lp_scan_body_inv e re rest [] (out ++ [c]) (n - 1)
          doc sc re2 h
        refine ⟨[], c, body, n, ?_, by simp, hc2, ?_, ?_, ?_⟩
        · simp [hb1]
        · simpa using hA
        · simp [hb2]
        · omega

theorem lp_scan_swallow (re : Option Error) (src : List Byte) :
    ∀ (sz out : List Byte) (len : Int), len ≤ 0 →
      LenPrefixedReader.scanLoop none re src sz out false len =
        (([], some Error.EOF), ⟨[], none⟩, re) := by
  induction src with
  | nil => intro sz out len _; simp [LenPrefixedReader.scanLoop, Scanner.Err]
  | cons c rest ih =>
    intro sz out len h
    have hpos : ¬ (len > 0) := by omega
    simp only [LenPrefixedReader.scanLoop, hpos, Bool.false_eq_true, if_false]
    exact ih sz out len h

theorem lp_readN_exhausted (n : Nat) :
    LenPrefixedReader.readN n (NewLenPrefixedReader []) =
      (List.replicate n ([], some Error.EOF), NewLenPrefixedReader []) := by
  induction n with
  | zero => rfl
  | succ n ih =>
    have h1 : (NewLenPrefixedReader []).ReadRaw =
        (([], some Error.EOF), NewLenPrefixedReader []) := by decide
    simp only [LenPrefixedReader.readN, h1, ih, List.replicate_succ]

/-! ### Draining the record-separator reader -/

theorem seq_scan_no_sep (sep : Byte) (src : List Byte) :
    ∀ out : List Byte, sep ∉ src →
      SeqReader.scanLoop sep none src out = (([], some Error.EOF), ⟨[], none⟩) := by
  induction src with
  | nil => intro out _; simp [SeqReader.scanLoop, Scanner.Err]
  | cons c rest ih =>
    intro out h
    have hc : ¬ (c = sep) := by
      intro hc; exact h (by simp [hc])
    have hr : sep ∉ rest := by
      intro hr; exact h (by simp [hr])
    simp only [SeqReader.scanLoop, hc, if_false]
    exact ih (out ++ [c]) hr

theorem terminatedSegments_first (sep : Byte) (d rest : List Byte) (h : sep ∉ d) :
    terminatedSegments sep (d ++ sep :: rest) = d :: terminatedSegments sep rest := by
  have hp : ∀ x ∈ d, ¬ ((x == sep) = true) := by
    intro x hx hxs
    have : x = sep := by simpa using hxs
    exact h (this ▸ hx)
  have hsplit : (d ++ sep :: rest).splitOn sep = d :: rest.splitOn sep := by
    simp only [List.splitOn]
    exact List.splitOnP_first (fun x => x == sep) d hp sep (by simp) rest
  have hne : rest.splitOn sep ≠ [] := List.splitOnP_ne_nil _ _
  simp only [terminatedSegments, hsplit, List.dropLast_cons_of_ne_nil hne]

theorem terminatedSegments_no_sep (sep : Byte) (src : List Byte) (h : sep ∉ src) :
    terminatedSegments sep src = [] := by
  have hp : ∀ x ∈ src, ¬ ((x == sep) = true) := by
    intro x hx hxs
    have : x = sep := by simpa using hxs
    exact h (this ▸ hx)
  have hsplit : src.splitOn sep = [src] := by
    simp only [List.splitOn]
    exact List.splitOnP_eq_single (fun x => x == sep) src hp
  simp [terminatedSegments, hsplit]

theorem seq_ReadRawAll_loop (sep : Byte) (fuel : Nat) :
    ∀ (input : List Byte) (out : List (List Byte)), input.length < fuel →
      ReadRawAll.loop SeqReader.asReader fuel ⟨sep, ⟨input, none⟩⟩ out =
        some ((out ++ terminatedSegments sep input, none), ⟨sep, ⟨[], none⟩⟩) := by
  induction fuel with
  | zero => intro input out h; omega
  | succ k ih =>
    intro input out h
    by_cases hmem : sep ∈ input
    · obtain ⟨d, rest, hin, hd⟩ := List.eq_append_cons_of_mem hmem
      subst hin
      have hread := seq_ReadRaw_doc sep none d rest hd
      have hlen : rest.length < k := by
        simp at h; omega
      have ih2 := ih rest (out ++ [d]) hlen
      rw [ReadRawAll.loop]
      simp only [SeqReader.asReader, hread] at ih2 ⊢
      rw [ih2, terminatedSegments_first sep d rest hd]
      simp
    · have hscan := seq_scan_no_sep sep input [] hmem
      rw [ReadRawAll.loop]
      simp [SeqReader.asReader, SeqReader.ReadRaw, SeqReader.ReadRawBody, hscan,
        terminatedSegments_no_sep sep input hmem]

theorem terminatedSegments_props (sep : Byte) (n : Nat) :
    ∀ input : List Byte, input.length < n →
      (∀ d ∈ terminatedSegments sep input, sep ∉ d) ∧
      (terminatedSegments sep input).length = input.count sep := by
  induction n with
  | zero => intro input h; omega
  | succ k ih =>
    intro input h
    by_cases hmem : sep ∈ input
    · obtain ⟨d, rest, hin, hd⟩ := List.eq_append_cons_of_mem hmem
      subst hin
      have hlen : rest.length < k := by
        simp at h; omega
      obtain ⟨ih1, ih2⟩ := ih rest hlen
      rw [terminatedSegments_first sep d rest hd]
      constructor
      · intro x hx
        rcases List.mem_cons.mp hx with hx | hx
        · exact hx ▸ hd
        · exact ih1 x hx
      · have hcd : d.count sep = 0 := List.count_eq_zero.mpr hd
        simp [ih2, hcd]
    · rw [terminatedSegments_no_sep sep input hmem]
      exact ⟨by simp, by simp [List.count_eq_zero.mpr hmem]⟩

/-! ### The concatenated reader -/

theorem concat_call_keeps_reader {δ α : Type} (r : ConcatReader δ α) (out : α) (st : δ) :
    (r.ReadRaw st).2.1 = r ∧ (r.Unmarshal out st).2.1 = r :=
  ⟨rfl, rfl⟩

theorem concat_ReadRaw_invokes_decoder {δ α : Type} (r : ConcatReader δ α) (st : δ)
    (h : r.err = none) : (r.ReadRaw st).2.2 = (r.d.DecodeRaw st).2 := by
  cases hd : (r.d.DecodeRaw st).1.2 <;>
    simp [ConcatReader.ReadRaw, ConcatReader.ReadRawBody, h, hd]

/-! ### UnmarshalAll on a nil pointer to a slice -/

theorem unmarshalAll_nil_pointer {ρ α : Type} (r : Reader ρ) (codec : Codec α) (zero : α)
    (fuel : Nat) (st : ρ) :
    ((r.ReadRaw st).1.2 = some Error.EOF →
      UnmarshalAll r.counted codec zero (fuel + 1) OutArg.nilPtrToSlice (st, 0) =
        some (Outcome.returned ((none, OutArg.nilPtrToSlice), ((r.ReadRaw st).2, 1)))) ∧
    ((r.ReadRaw st).1.2 = none → (codec (r.ReadRaw st).1.1 zero).1 = none →
      UnmarshalAll r.counted codec zero (fuel + 1) OutArg.nilPtrToSlice (st, 0) =
        some (Outcome.panicked ((r.ReadRaw st).2, 1))) := by
  constructor
  · intro h
    simp [UnmarshalAll, UnmarshalAll.nilLoop, Reader.counted, h]
  · intro h hd
    simp [UnmarshalAll, UnmarshalAll.nilLoop, Reader.counted, h, hd]

/-! ### The claims -/

/-- C1, evaluated on the code, which breaks it: the documents `{"a":1}` and
`{"b":2}` written in order with `WriteRaw` on one `SeqWriter` with the default
separator reach an accepting sink as `{"a":1}{"b":2}`, without the separator
`0x1E` between them.  The body sets `notfirst` on its receiver copy, and the
caller's writer still has `notfirst = false` after the call. -/
theorem seqWriter_drops_separator :
    SeqWriter.writeDocs (NewSeqWriter bytesBuffer) [docA, docB] [] = (none, docA ++ docB) ∧
    (SeqWriter.writeDocs (NewSeqWriter bytesBuffer) [docA, docB] []).2 ≠
      docA ++ [0x1e] ++ docB ∧
    ((NewSeqWriter bytesBuffer).WriteRawBody docA []).2.1.notfirst = true ∧
    ((NewSeqWriter bytesBuffer).WriteRaw docA []).2.1.notfirst = false := by
  decide

/-- C2, evaluated on the code, which breaks it: on the input `a5hello` the first
`ReadRaw` fails with the `Atoi` syntax error (the first byte is not a digit) and
stores it in the receiver copy only; the caller's reader still has a `nil` `err`,
and the second `ReadRaw` consumes `5hello` and returns the document `hello` with
a `nil` error. -/
theorem lenPrefixedReader_error_not_latched :
    (NewLenPrefixedReader [97, 53, 104, 101, 108, 108, 111]).ReadRaw.1 =
      ([], some (Error.AtoiSyntaxErr [])) ∧
    (NewLenPrefixedReader [97, 53, 104, 101, 108, 108, 111]).ReadRawBody.2.err =
      some (Error.AtoiSyntaxErr []) ∧
    (NewLenPrefixedReader [97, 53, 104, 101, 108, 108, 111]).ReadRaw.2 =
      NewLenPrefixedReader [53, 104, 101, 108, 108, 111] ∧
    (NewLenPrefixedReader [97, 53, 104, 101, 108, 108, 111]).ReadRaw.2.ReadRaw =
      (([104, 101, 108, 108, 111], none), NewLenPrefixedReader []) := by
  decide

/-- C3 as stated fails: the single non-empty document `42` is written as `242`,
and a fresh reader over these bytes returns `io.EOF` from both calls instead of
the document and then `io.EOF`. -/
theorem lenPrefixed_roundtrip_digit_leading :
    (NewLenPrefixedWriter bytesBuffer).writeDocs [[52, 50]] [] = (none, [50, 52, 50]) ∧
    (LenPrefixedReader.readN 2 (NewLenPrefixedReader [50, 52, 50])).1 =
      [([], some Error.EOF), ([], some Error.EOF)] ∧
    (LenPrefixedReader.readN 2 (NewLenPrefixedReader [50, 52, 50])).1 ≠
      expectedReads [[52, 50]] := by
  decide

/-- C3, amended: for every sequence of documents each of which is at least two
bytes long (and, as any Go slice, at most `maxInt` bytes long) and begins with a
byte that is not an ASCII digit, writing them in order with
`LenPrefixedWriter.WriteRaw` to an accepting sink succeeds, and `n+1` successive
`ReadRaw` calls on a fresh `LenPrefixedReader` over the written bytes return the
documents in order, each with a `nil` error, followed by `io.EOF`. -/
theorem lenPrefixed_roundtrip (docs : List (List Byte))
    (h : ∀ d ∈ docs, 2 ≤ d.length ∧ d.length ≤ maxInt ∧ ∀ c ∈ d.head?, isDigit c = false) :
    ∃ written : List Byte,
      (NewLenPrefixedWriter bytesBuffer).writeDocs docs [] = (none, written) ∧
      (LenPrefixedReader.readN (docs.length + 1) (NewLenPrefixedReader written)).1 =
        expectedReads docs := by
  refine ⟨lenPrefixed docs, ?_, ?_⟩
  · have hne : ∀ d ∈ docs, d ≠ [] := by
      intro d hd hnil
      have := (h d hd).1
      simp [hnil] at this
    simpa using lp_writeDocs_buffer docs [] hne
  · rw [lp_readN_records docs h]

/-- C3, amended, at the documents `{"a":1}` and `{"b":2}`. -/
theorem lenPrefixed_roundtrip_witness :
    (∀ d ∈ [docA, docB],
      2 ≤ d.length ∧ d.length ≤ maxInt ∧ ∀ c ∈ d.head?, isDigit c = false) ∧
    ∃ written : List Byte,
      (NewLenPrefixedWriter bytesBuffer).writeDocs [docA, docB] [] = (none, written) ∧
      (LenPrefixedReader.readN 3 (NewLenPrefixedReader written)).1 =
        expectedReads [docA, docB] :=
  ⟨by decide, lenPrefixed_roundtrip [docA, docB] (by decide)⟩

/-- C4, evaluated on the code, which breaks it: over the input
`{"a":1}\x1E{"b":2}`, which ends with the non-empty run `{"b":2}` not followed by
the separator, the first `ReadRaw` returns `{"a":1}` and the second consumes the
run, discards it and returns `io.EOF`; no call returns `{"b":2}`. -/
theorem seqReader_drops_unterminated_tail :
    (SeqReader.readN 2 (NewSeqReader (docA ++ [0x1e] ++ docB))) =
      ([(docA, none), ([], some Error.EOF)], NewSeqReader []) ∧
    (NewSeqReader docB).ReadRaw = (([], some Error.EOF), NewSeqReader []) ∧
    (NewSeqReader docB).ReadRaw.1 ≠ (docB, none) := by
  decide

/-- C5 as stated fails: on the input `5ab`, whose length prefix parses to 5 and
whose source ends after two body bytes, `ReadRaw` returns `io.EOF`. -/
theorem lenPrefixedReader_truncated_example :
    (NewLenPrefixedReader [53, 97, 98]).ReadRaw = (([], some Error.EOF), NewLenPrefixedReader []) := by
  decide

/-- C5, amended: for every input made of a run of digits that `Atoi` parses to
`N`, followed by fewer than `N` body bytes (the first of which, if any, is not a
digit), over a source that ends without an I/O error, `ReadRaw` on a fresh
`LenPrefixedReader` consumes the whole input and returns `io.EOF`; no framing
error is raised. -/
theorem lenPrefixedReader_truncated_EOF (ds body : List Byte) (N : Int)
    (hN : Atoi ds = .ok N) (hd : ∀ c ∈ body.head?, isDigit c = false)
    (hshort : (body.length : Int) < N) :
    (NewLenPrefixedReader (ds ++ body)).ReadRaw =
      (([], some Error.EOF), NewLenPrefixedReader []) := by
  have hdig := Atoi_ok_all_isDigit ds N hN
  have hloop : LenPrefixedReader.scanLoop none none (ds ++ body) [] [] true 0 =
      (([], some Error.EOF), ⟨[], none⟩, none) := by
    rw [lp_scan_digits none none ds body [] [] 0 hdig]
    match body, hd, hshort with
    | [], _, _ => simp [LenPrefixedReader.scanLoop, Scanner.Err]
    | c :: b, hd, hshort =>
      have hc : isDigit c = false := hd c (by simp)
      have hlen : ((c :: b).length : Int) = (b.length : Int) + 1 := by simp
      simp only [List.nil_append, LenPrefixedReader.scanLoop, hc, if_true, Bool.false_eq_true,
        if_false, hN]
      exact lp_scan_short_body none b [] ([] ++ [c]) (N - 1) (by omega)
  simp only [LenPrefixedReader.ReadRaw, LenPrefixedReader.ReadRawBody, NewLenPrefixedReader,
    Scanner.ofBytes, hloop]

/-- C5, amended, at the input `5ab`. -/
theorem lenPrefixedReader_truncated_EOF_witness :
    Atoi [53] = .ok 5 ∧ (∀ c ∈ [97, 98].head?, isDigit c = false) ∧
    (([97, 98] : List Byte).length : Int) < 5 ∧
    (NewLenPrefixedReader ([53] ++ [97, 98])).ReadRaw =
      (([], some Error.EOF), NewLenPrefixedReader []) :=
  ⟨rfl, by decide, by decide,
    lenPrefixedReader_truncated_EOF [53] [97, 98] 5 rfl (by decide) (by decide)⟩

/-- C6: for every non-empty `data` and every state `s` of an accepting sink,
`LenPrefixedWriter.WriteRaw data` returns `nil` and appends exactly
`Itoa (len data)` followed by `data`; and writing non-empty documents `docs` in
order returns `nil` and appends `Itoa (len d1) ++ d1 ++ ... ++ Itoa (len dn) ++ dn`. -/
theorem lenPrefixedWriter_WriteRaw_spec (data s : List Byte) (docs : List (List Byte))
    (h : data ≠ []) (hdocs : ∀ d ∈ docs, d ≠ []) :
    (NewLenPrefixedWriter bytesBuffer).WriteRaw data s =
      (none, s ++ Itoa data.length ++ data) ∧
    (NewLenPrefixedWriter bytesBuffer).writeDocs docs s =
      (none, s ++ (docs.map (fun d => Itoa d.length ++ d)).flatten) :=
  ⟨lp_WriteRaw_buffer data s h, lp_writeDocs_buffer docs s hdocs⟩

/-- C6 at the documents `{"a":1}` and `{"b":2}`: one write gives `7{"a":1}`, the
two writes give `7{"a":1}7{"b":2}`. -/
theorem lenPrefixedWriter_WriteRaw_spec_witness :
    docA ≠ [] ∧ (∀ d ∈ [docA, docB], d ≠ []) ∧
    (NewLenPrefixedWriter bytesBuffer).WriteRaw docA [] = (none, [55] ++ docA) ∧
    (NewLenPrefixedWriter bytesBuffer).writeDocs [docA, docB] [] =
      (none, [55] ++ docA ++ [55] ++ docB) :=
  ⟨by decide, by decide, lenPrefixedWriter_WriteRaw_spec docA [] [docA, docB] (by decide) (by decide)⟩

/-- C7: for every `LenPrefixedWriter`, over any sink in any state, `WriteRaw` with
a zero-length payload returns the non-nil error `Empty doc` and leaves the sink
as it was (no `Write` reaches it). -/
theorem lenPrefixedWriter_WriteRaw_empty {σ : Type} (w : LenPrefixedWriter σ) (s : σ) :
    w.WriteRaw [] s = (some Error.EmptyDoc, s) ∧ (w.WriteRaw [] s).1 ≠ none := by
  simp [LenPrefixedWriter.WriteRaw]

/-- C8: for every sequence of documents each at least two bytes long (and at most
`maxInt` bytes, as any Go slice) and beginning with a byte that is not an ASCII
digit, a fresh `LenPrefixedReader` over `Itoa (len d1) ++ d1 ++ ... ++ Itoa (len dn) ++ dn`
returns the documents in order from `n` successive `ReadRaw` calls, each with a
`nil` error, and `io.EOF` from the next call. -/
theorem lenPrefixedReader_reads_records (docs : List (List Byte))
    (h : ∀ d ∈ docs, 2 ≤ d.length ∧ d.length ≤ maxInt ∧ ∀ c ∈ d.head?, isDigit c = false) :
    (LenPrefixedReader.readN (docs.length + 1)
        (NewLenPrefixedReader ((docs.map (fun d => Itoa d.length ++ d)).flatten))).1 =
      docs.map (fun d => (d, none)) ++ [([], some Error.EOF)] := by
  have := lp_readN_records docs h
  simp only [lenPrefixed, expectedReads] at this
  rw [this]

/-- C8 at the documents `{"a":1}` and `{"b":2}`, the stream being `7{"a":1}7{"b":2}`. -/
theorem lenPrefixedReader_reads_records_witness :
    (∀ d ∈ [docA, docB],
      2 ≤ d.length ∧ d.length ≤ maxInt ∧ ∀ c ∈ d.head?, isDigit c = false) ∧
    (LenPrefixedReader.readN 3 (NewLenPrefixedReader ([55] ++ docA ++ [55] ++ docB))).1 =
      [(docA, none), (docB, none), ([], some Error.EOF)] :=
  ⟨by decide, lenPrefixedReader_reads_records [docA, docB] (by decide)⟩

/-- C9: for every separator `sep` and every sequence of documents none of which
contains `sep`, a fresh `SeqReader` with separator `sep` over
`d1 ++ [sep] ++ ... ++ dn ++ [sep]` returns the documents in order from `n`
successive `ReadRaw` calls, each with a `nil` error, and `io.EOF` from the next
call: no empty document follows the final separator. -/
theorem seqReader_reads_terminated (sep : Byte) (docs : List (List Byte))
    (h : ∀ d ∈ docs, sep ∉ d) :
    (SeqReader.readN (docs.length + 1)
        (NewSeqReaderWithSep ((docs.map (fun d => d ++ [sep])).flatten) sep)).1 =
      docs.map (fun d => (d, none)) ++ [([], some Error.EOF)] := by
  have := seq_readN_terminated sep docs h
  simp only [sepTerminated, expectedReads] at this
  rw [this]

/-- C9 at the separator `0x1E` and the documents `{"a":1}` and `{"b":2}`. -/
theorem seqReader_reads_terminated_witness :
    (∀ d ∈ [docA, docB], 0x1e ∉ d) ∧
    (SeqReader.readN 3 (NewSeqReaderWithSep (docA ++ [0x1e] ++ docB ++ [0x1e]) 0x1e)).1 =
      [(docA, none), (docB, none), ([], some Error.EOF)] :=
  ⟨by decide, seqReader_reads_terminated 0x1e [docA, docB] (by decide)⟩

/-- C10: for every `data` and every state `s` of an accepting sink,
`LineWriter.WriteRaw data` returns `nil` and appends exactly `data` with every
`'\n'` byte removed, followed by one `'\n'`; the appended record holds exactly
one `'\n'`, and it is its last byte. -/
theorem lineWriter_WriteRaw_spec (data s : List Byte) :
    ∃ record : List Byte,
      (NewLineWriter bytesBuffer).WriteRaw data s = (none, s ++ record) ∧
      record = data.filter (fun c => decide (c ≠ 10)) ++ [10] ∧
      record.count 10 = 1 ∧ record.getLast? = some 10 := by
  refine ⟨data.filter (fun c => decide (c ≠ 10)) ++ [10], line_WriteRaw_buffer data s, rfl,
    count_newline_record data, ?_⟩
  simp

/-- C11 as stated fails: the document `a\r` holds no `'\n'`, is written as
`a\r\n` and read back as `a`; and a document of 65536 bytes `a` is written with
its `'\n'` and the read fails with `bufio.ErrTooLong`. -/
theorem lineRoundtrip_fails :
    ((NewLineWriter bytesBuffer).writeDocs [[97, 13]] [] = (none, [97, 13, 10]) ∧
      (LineReader.readN 2 (NewLineReader [97, 13, 10])).1 =
        [([97], none), ([], some Error.EOF)] ∧
      (LineReader.readN 2 (NewLineReader [97, 13, 10])).1 ≠ expectedReads [[97, 13]]) ∧
    ((NewLineWriter bytesBuffer).writeDocs [List.replicate 65536 97] [] =
        (none, List.replicate 65536 97 ++ [10]) ∧
      (NewLineReader (List.replicate 65536 97 ++ [10])).ReadRaw.1 =
        ([], some Error.TooLong)) := by
  exact ⟨by decide, line_long_doc 65536 (by decide)⟩

/-- C11, amended: for every sequence of documents none of which contains a `'\n'`
byte, ends with a `'\r'` byte or is `maxScanTokenSize` (65536) bytes long or
longer, writing them in order with `LineWriter.WriteRaw` to an accepting sink
succeeds, and `n+1` successive `ReadRaw` calls on a fresh `LineReader` over the
written bytes return the documents in order, each with a `nil` error, followed
by `io.EOF`. -/
theorem lineRoundtrip (docs : List (List Byte))
    (h : ∀ d ∈ docs, 10 ∉ d ∧ d.getLast? ≠ some 13 ∧ d.length < maxScanTokenSize) :
    ∃ written : List Byte,
      (NewLineWriter bytesBuffer).writeDocs docs [] = (none, written) ∧
      (LineReader.readN (docs.length + 1) (NewLineReader written)).1 =
        expectedReads docs := by
  refine ⟨(docs.map (fun d => d ++ [10])).flatten, ?_, ?_⟩
  · simpa using line_writeDocs_buffer docs [] (fun d hd => (h d hd).1)
  · rw [line_readN_docs docs h]

/-- C11, amended, at the documents `{"a":1}` and `{"b":2}`. -/
theorem lineRoundtrip_witness :
    (∀ d ∈ [docA, docB], 10 ∉ d ∧ d.getLast? ≠ some 13 ∧ d.length < maxScanTokenSize) ∧
    ∃ written : List Byte,
      (NewLineWriter bytesBuffer).writeDocs [docA, docB] [] = (none, written) ∧
      (LineReader.readN 3 (NewLineReader written)).1 = expectedReads [docA, docB] :=
  ⟨by decide, lineRoundtrip [docA, docB] (by decide)⟩

/-- C12: when `Unmarshal` on a `LineReader` meets the line `line` and the codec
rejects it with the error `e`, the call returns `e` and leaves the reader where
`ReadRaw` would have left it after returning `line`, which is where `Unmarshal`
with any other codec, one that accepts the line included, leaves it: exactly
that line is consumed and nothing is latched. -/
theorem lineReader_Unmarshal_reject {α : Type} (codec other : Codec α) (r : LineReader)
    (out out2 : α) (line : List Byte) (sc : LineScanner) (e : Error)
    (hscan : r.scn.Scan = (some line, sc)) (hrej : (codec line out).1 = some e) :
    (r.Unmarshal codec out).1.1 = some e ∧
    (r.Unmarshal codec out).2 = ⟨sc⟩ ∧
    (r.Unmarshal other out2).2 = ⟨sc⟩ ∧
    r.ReadRaw = ((line, none), ⟨sc⟩) := by
  simp [LineReader.Unmarshal, LineReader.ReadRaw, hscan, hrej]

/-- C12 at the input `x\n{"a":1}\n` and a codec that rejects `x`: the failing
`Unmarshal` leaves the reader before `{"a":1}`, and the next `Unmarshal`
decodes it. -/
theorem lineReader_Unmarshal_reject_witness :
    (NewLineReader ([120, 10] ++ docA ++ [10])).scn.Scan =
      (some [120], LineScanner.ofBytes (docA ++ [10])) ∧
    (braceCodec [120] []).1 = some (Error.Json 0) ∧
    ((NewLineReader ([120, 10] ++ docA ++ [10])).Unmarshal braceCodec []).1.1 =
      some (Error.Json 0) ∧
    ((NewLineReader ([120, 10] ++ docA ++ [10])).Unmarshal braceCodec []).2 =
      ⟨LineScanner.ofBytes (docA ++ [10])⟩ ∧
    ((NewLineReader ([120, 10] ++ docA ++ [10])).Unmarshal (fun o _ => (none, o)) []).2 =
      ⟨LineScanner.ofBytes (docA ++ [10])⟩ ∧
    (NewLineReader ([120, 10] ++ docA ++ [10])).ReadRaw =
      (([120], none), ⟨LineScanner.ofBytes (docA ++ [10])⟩) :=
  ⟨by decide, by decide,
    lineReader_Unmarshal_reject braceCodec (fun o _ => (none, o))
      (NewLineReader ([120, 10] ++ docA ++ [10]))
      [] [] [120] (LineScanner.ofBytes (docA ++ [10])) (Error.Json 0) (by decide) (by decide)⟩

/-- C13, evaluated on the code, which breaks it: over the stream `"x"{"a":1}`,
`Unmarshal` into an `int` returns the decoder's type error and stores it in the
receiver copy only; the caller's reader still has a `nil` `err`, and the next
`ReadRaw` invokes the decoder again and returns the document `{"a":1}` with a
`nil` error. -/
theorem concatReader_error_not_latched :
    ((NewConcatReader jsonDecoder).Unmarshal [] mismatchStream).1.1 = some (Error.Json 1) ∧
    ((NewConcatReader jsonDecoder).UnmarshalBody [] mismatchStream).2.1.err =
      some (Error.Json 1) ∧
    ((NewConcatReader jsonDecoder).Unmarshal [] mismatchStream).2.1.err = none ∧
    (((NewConcatReader jsonDecoder).Unmarshal [] mismatchStream).2.1.ReadRaw
        ((NewConcatReader jsonDecoder).Unmarshal [] mismatchStream).2.2).1 = (docA, none) := by
  decide

/-- C14: for every `Reader` whose successive `ReadRaw` calls return the documents
`docs` with `nil` errors and then the error `e`, `ReadRawAll` (given fuel for
`k+1` iterations) returns exactly `docs` in read order, with a `nil` error when
`e` is `io.EOF` and with `e` otherwise, after exactly `k+1` `ReadRaw` calls: the
counter of the reader stands at `k+1` and the reader is where those calls left
it. -/
theorem readRawAll_spec {ρ : Type} (r : Reader ρ) (st : ρ) (docs : List (List Byte))
    (x : List Byte) (e : Error) (fuel : Nat)
    (h : (Reader.readN r (docs.length + 1) st).1 =
      docs.map (fun d => (d, none)) ++ [(x, some e)])
    (hf : docs.length + 1 ≤ fuel) :
    ReadRawAll r.counted fuel (st, 0) =
      some ((docs, if e = Error.EOF then none else some e),
        ((Reader.readN r (docs.length + 1) st).2, docs.length + 1)) := by
  have hc := Reader.readN_counted r (docs.length + 1) st 0
  have hl := ReadRawAll_loop_spec r.counted docs (st, 0) [] fuel x e (by rw [hc]; exact h) hf
  rw [hc] at hl
  simpa [ReadRawAll] using hl

/-- C14 at a `SeqReader` over `{"a":1}\x1E{"b":2}\x1E`: two documents, then
`io.EOF`; `ReadRawAll` returns the two documents and a `nil` error after three
`ReadRaw` calls. -/
theorem readRawAll_spec_witness :
    (Reader.readN SeqReader.asReader 3 (NewSeqReader (sepTerminated 0x1e [docA, docB]))).1 =
      [(docA, none), (docB, none), ([], some Error.EOF)] ∧
    ReadRawAll SeqReader.asReader.counted 5
        (NewSeqReader (sepTerminated 0x1e [docA, docB]), 0) =
      some (([docA, docB], none), (NewSeqReader [], 3)) :=
  ⟨by decide,
    readRawAll_spec SeqReader.asReader (NewSeqReader (sepTerminated 0x1e [docA, docB]))
      [docA, docB] [] Error.EOF 5 (by decide) (by decide)⟩

/-- C15: for every reader and every output that is not a pointer to a slice (the
`nil` interface, a non-pointer value, a pointer to a non-slice), `UnmarshalAll`
returns a non-nil error and makes no `ReadRaw` call: the counter of the reader
stays at 0 and the reader state and the output are what they were.  (A nil
pointer whose type is pointer to slice is a pointer to a slice, and is not among
these outputs.) -/
theorem unmarshalAll_rejects_non_slice {ρ α : Type} (r : Reader ρ) (codec : Codec α)
    (zero : α) (fuel : Nat) (out : OutArg α) (st : ρ)
    (h : out = OutArg.nilInterface ∨ out = OutArg.nonPointer ∨ out = OutArg.ptrToNonSlice) :
    ∃ err : Error,
      UnmarshalAll r.counted codec zero fuel out (st, 0) =
        some (Outcome.returned ((some err, out), (st, 0))) := by
  rcases h with h | h | h
  · subst h; exact ⟨Error.PointerRequired, rfl⟩
  · subst h; exact ⟨Error.PointerRequired, rfl⟩
  · subst h; exact ⟨Error.NotASlice, rfl⟩

/-- C15 at a pointer to a non-slice and a `SeqReader` over `{"a":1}\x1E`. -/
theorem unmarshalAll_rejects_non_slice_witness :
    ((OutArg.ptrToNonSlice : OutArg (List Byte)) = OutArg.nilInterface ∨
      (OutArg.ptrToNonSlice : OutArg (List Byte)) = OutArg.nonPointer ∨
      (OutArg.ptrToNonSlice : OutArg (List Byte)) = OutArg.ptrToNonSlice) ∧
    ∃ err : Error,
      UnmarshalAll SeqReader.asReader.counted braceCodec [] 5 OutArg.ptrToNonSlice
          (NewSeqReader (docA ++ [0x1e]), 0) =
        some (Outcome.returned
          ((some err, OutArg.ptrToNonSlice), (NewSeqReader (docA ++ [0x1e]), 0))) :=
  ⟨Or.inr (Or.inr rfl),
    unmarshalAll_rejects_non_slice SeqReader.asReader braceCodec [] 5 OutArg.ptrToNonSlice
      (NewSeqReader (docA ++ [0x1e])) (Or.inr (Or.inr rfl))⟩

/-- C16: for every reader whose `ReadRaw` yields the documents `docs` and then
`io.EOF`, and every output pointing to a slice holding `prior`, if each document
decodes (into a fresh element) to the corresponding value of `vals`, then
`UnmarshalAll` (given fuel for `n+1` iterations) returns `nil` and leaves the
slice equal to `prior` followed by `vals` in read order. -/
theorem unmarshalAll_spec {ρ α : Type} (r : Reader ρ) (codec : Codec α) (zero : α)
    (st : ρ) (docs : List (List Byte)) (vals prior : List α) (x : List Byte) (fuel : Nat)
    (h : (Reader.readN r (docs.length + 1) st).1 =
      docs.map (fun d => (d, none)) ++ [(x, some Error.EOF)])
    (hdec : docs.map (fun d => codec d zero) = vals.map (fun v => (none, v)))
    (hf : docs.length + 1 ≤ fuel) :
    UnmarshalAll r codec zero fuel (OutArg.ptrToSlice prior) st =
      some (Outcome.returned ((none, OutArg.ptrToSlice (prior ++ vals)),
        (Reader.readN r (docs.length + 1) st).2)) := by
  have hl := UnmarshalAll_loop_spec r codec zero docs vals st prior fuel x h hdec hf
  simp [UnmarshalAll, hl]

/-- C16 at a `SeqReader` over `{"a":1}\x1E{"b":2}\x1E` and a slice holding one
element. -/
theorem unmarshalAll_spec_witness :
    (Reader.readN SeqReader.asReader 3 (NewSeqReader (sepTerminated 0x1e [docA, docB]))).1 =
      [(docA, none), (docB, none), ([], some Error.EOF)] ∧
    [docA, docB].map (fun d => braceCodec d []) = [docA, docB].map (fun v => (none, v)) ∧
    UnmarshalAll SeqReader.asReader braceCodec [] 5 (OutArg.ptrToSlice [[1]])
        (NewSeqReader (sepTerminated 0x1e [docA, docB])) =
      some (Outcome.returned
        ((none, OutArg.ptrToSlice [[1], docA, docB]), NewSeqReader [])) :=
  ⟨by decide, by decide,
    unmarshalAll_spec SeqReader.asReader braceCodec []
      (NewSeqReader (sepTerminated 0x1e [docA, docB])) [docA, docB] [docA, docB] [[1]] []
      5 (by decide) (by decide) (by decide)⟩

/-- C17: for `LineReader`, `LenPrefixedReader` and `SeqReader`, from every reader
state and for every codec and output, `Unmarshal` returns what `ReadRaw` followed
by the codec returns (the error of `ReadRaw` when it fails, the result of
decoding the bytes `ReadRaw` returns otherwise) and leaves the reader in the state
`ReadRaw` leaves it in. -/
theorem unmarshal_eq_decodeAfterRead {α : Type} (codec : Codec α) (out : α)
    (lr : LineReader) (pr : LenPrefixedReader) (sr : SeqReader) :
    lr.Unmarshal codec out = (decodeAfterRead codec lr.ReadRaw.1 out, lr.ReadRaw.2) ∧
    pr.Unmarshal codec out = (decodeAfterRead codec pr.ReadRaw.1 out, pr.ReadRaw.2) ∧
    sr.Unmarshal codec out = (decodeAfterRead codec sr.ReadRaw.1 out, sr.ReadRaw.2) := by
  refine ⟨?_, ?_, ?_⟩
  · cases h1 : lr.scn.Scan.1 with
    | some o => simp [LineReader.Unmarshal, LineReader.ReadRaw, decodeAfterRead, h1]
    | none =>
      cases h2 : lr.scn.Scan.2.Err with
      | none => simp [LineReader.Unmarshal, LineReader.ReadRaw, decodeAfterRead, h1, h2]
      | some err => simp [LineReader.Unmarshal, LineReader.ReadRaw, decodeAfterRead, h1, h2]
  · have hk : ({ pr with scn := pr.ReadRaw.2.scn } : LenPrefixedReader) = pr.ReadRaw.2 := rfl
    cases h1 : pr.ReadRaw.1.2 with
    | some err =>
      simp only [LenPrefixedReader.Unmarshal, LenPrefixedReader.UnmarshalBody, decodeAfterRead,
        h1, hk]
    | none =>
      simp only [LenPrefixedReader.Unmarshal, LenPrefixedReader.UnmarshalBody, decodeAfterRead,
        h1, hk]
  · have hk : ({ sr with scn := sr.ReadRaw.2.scn } : SeqReader) = sr.ReadRaw.2 := rfl
    cases h1 : sr.ReadRaw.1.2 with
    | some err =>
      simp only [SeqReader.Unmarshal, SeqReader.UnmarshalBody, decodeAfterRead, h1, hk]
    | none =>
      simp only [SeqReader.Unmarshal, SeqReader.UnmarshalBody, decodeAfterRead, h1, hk]

/-- C18: whenever `LenPrefixedReader.ReadRaw` returns a document `doc` with a
`nil` error, the input the call consumed is a non-empty run `ds` of ASCII digits
that `Atoi` parses to `N`, followed by exactly the bytes of `doc`; `doc` has
length `N`, and its first byte is not a digit (the byte that ended the length
phase). -/
theorem lenPrefixedReader_success_shape (r r2 : LenPrefixedReader) (doc : List Byte)
    (h : r.ReadRaw = ((doc, none), r2)) :
    ∃ (ds : List Byte) (N : Int),
      r.scn.src = ds ++ doc ++ r2.scn.src ∧ ds ≠ [] ∧ ds.all isDigit = true ∧
      Atoi ds = .ok N ∧ (doc.length : Int) = N ∧
      ∃ (c : Byte) (body : List Byte), doc = c :: body ∧ isDigit c = false := by
  cases herr : r.err with
  | some err =>
    simp [LenPrefixedReader.ReadRaw, LenPrefixedReader.ReadRawBody, herr] at h
  | none =>
    simp only [LenPrefixedReader.ReadRaw, LenPrefixedReader.ReadRawBody, herr,
      Prod.mk.injEq] at h
    obtain ⟨h1, h2⟩ := h
    have hsc : r2.scn =
        (LenPrefixedReader.scanLoop r.scn.srcErr none r.scn.src [] [] true 0).2.1 := by
      rw [← h2]
    have hloop : LenPrefixedReader.scanLoop r.scn.srcErr none r.scn.src [] [] true 0 =
        ((doc, none), r2.scn,
          (LenPrefixedReader.scanLoop r.scn.srcErr none r.scn.src [] [] true 0).2.2) := by
      rw [hsc, ← h1]
    obtain ⟨ds, c, body, N, g1, g2, g3, g4, g5, g6⟩ :=
      lp_scan_len_inv r.scn.srcErr none r.scn.src [] [] 0 doc r2.scn _ hloop
    simp only [List.nil_append] at g4 g5
    refine ⟨ds, N, ?_, ?_, g2, g4, ?_, c, body, g5, g3⟩
    · rw [g1, g5]
    · intro hnil
      rw [hnil] at g4
      simp [Atoi] at g4
    · rw [g5, List.length_cons, Nat.cast_add, Nat.cast_one]; exact g6

/-- C18 at the input `7{"a":1}7{"b":2}`: the first `ReadRaw` returns `{"a":1}`,
having consumed `7` and the seven bytes of the document. -/
theorem lenPrefixedReader_success_shape_witness :
    (NewLenPrefixedReader ([55] ++ docA ++ [55] ++ docB)).ReadRaw =
      ((docA, none), NewLenPrefixedReader ([55] ++ docB)) ∧
    ∃ (ds : List Byte) (N : Int),
      (NewLenPrefixedReader ([55] ++ docA ++ [55] ++ docB)).scn.src =
        ds ++ docA ++ (NewLenPrefixedReader ([55] ++ docB)).scn.src ∧
      ds ≠ [] ∧ ds.all isDigit = true ∧ Atoi ds = .ok N ∧ (docA.length : Int) = N ∧
      ∃ (c : Byte) (body : List Byte), docA = c :: body ∧ isDigit c = false :=
  ⟨by decide,
    lenPrefixedReader_success_shape (NewLenPrefixedReader ([55] ++ docA ++ [55] ++ docB))
      (NewLenPrefixedReader ([55] ++ docB)) docA (by decide)⟩

/-- C19: for every input that begins with a run of digits `Atoi` parses to
`N <= 1`, followed by a non-digit byte and any further bytes, over a source that
ends without an I/O error, `ReadRaw` on a fresh `LenPrefixedReader` discards all
the input and returns `io.EOF`, and so does every later call: the document is
never returned. -/
theorem lenPrefixedReader_short_prefix (ds rest : List Byte) (c : Byte) (N : Int) (n : Nat)
    (hN : Atoi ds = .ok N) (hle : N ≤ 1) (hc : isDigit c = false) :
    (NewLenPrefixedReader (ds ++ c :: rest)).ReadRaw =
      (([], some Error.EOF), NewLenPrefixedReader []) ∧
    (LenPrefixedReader.readN (n + 1) (NewLenPrefixedReader (ds ++ c :: rest))).1 =
      List.replicate (n + 1) ([], some Error.EOF) := by
  have hdig := Atoi_ok_all_isDigit ds N hN
  have hloop : LenPrefixedReader.scanLoop none none (ds ++ c :: rest) [] [] true 0 =
      (([], some Error.EOF), ⟨[], none⟩, none) := by
    rw [lp_scan_digits none none ds (c :: rest) [] [] 0 hdig]
    simp only [List.nil_append, LenPrefixedReader.scanLoop, hc, if_true, Bool.false_eq_true,
      if_false, hN]
    exact lp_scan_swallow none rest [] ([] ++ [c]) (N - 1) (by omega)
  have hread : (NewLenPrefixedReader (ds ++ c :: rest)).ReadRaw =
      (([], some Error.EOF), NewLenPrefixedReader []) := by
    simp only [LenPrefixedReader.ReadRaw, LenPrefixedReader.ReadRawBody, NewLenPrefixedReader,
      Scanner.ofBytes, hloop]
  refine ⟨hread, ?_⟩
  simp only [LenPrefixedReader.readN, hread, lp_readN_exhausted n, List.replicate_succ]

/-- C19 at the input `1a7{"a":1}`: the record `1a` is never returned, and the
well-formed record after it is lost with it. -/
theorem lenPrefixedReader_short_prefix_witness :
    Atoi [49] = .ok 1 ∧ (1 : Int) ≤ 1 ∧ isDigit 97 = false ∧
    (NewLenPrefixedReader ([49] ++ 97 :: ([55] ++ docA))).ReadRaw =
      (([], some Error.EOF), NewLenPrefixedReader []) ∧
    (LenPrefixedReader.readN (2 + 1) (NewLenPrefixedReader ([49] ++ 97 :: ([55] ++ docA)))).1 =
      List.replicate (2 + 1) ([], some Error.EOF) :=
  ⟨rfl, by decide, by decide,
    lenPrefixedReader_short_prefix [49] ([55] ++ docA) 97 1 2 rfl (by decide) (by decide)⟩

/-- C20: for every input and separator `sep`, over a source that ends without an
I/O error, `ReadRawAll` on a fresh `SeqReader` (given fuel for one iteration more
than the input has bytes) returns, with a `nil` error, exactly the
separator-terminated segments of the input in order, that is the input split on
`sep` without its final, unterminated segment; no returned document contains
`sep`, and there is one document per separator of the input (an empty one for a
separator that starts the input or directly follows another). -/
theorem seqReader_ReadRawAll_segments (sep : Byte) (input : List Byte) (fuel : Nat)
    (hf : input.length < fuel) :
    ReadRawAll SeqReader.asReader fuel (NewSeqReaderWithSep input sep) =
      some (((input.splitOn sep).dropLast, none), NewSeqReaderWithSep [] sep) ∧
    (∀ d ∈ (input.splitOn sep).dropLast, sep ∉ d) ∧
    ((input.splitOn sep).dropLast).length = input.count sep ∧
    (∀ rest : List Byte, ((sep :: rest).splitOn sep).dropLast =
      [] :: (rest.splitOn sep).dropLast) := by
  have hloop := seq_ReadRawAll_loop sep fuel input [] hf
  have hprops := terminatedSegments_props sep (input.length + 1) input (by omega)
  refine ⟨?_, hprops.1, hprops.2, ?_⟩
  · simpa [ReadRawAll, NewSeqReaderWithSep, NewSeqReader, Scanner.ofBytes, terminatedSegments]
      using hloop
  · intro rest
    have := terminatedSegments_first sep [] rest (by simp)
    simpa [terminatedSegments] using this

/-- C20 at the separator `0` and the input `0 1 0 0 2`: the documents are the
empty one, `1` and the empty one; the unterminated `2` is discarded. -/
theorem seqReader_ReadRawAll_segments_witness :
    ([0, 1, 0, 0, 2] : List Byte).length < 6 ∧
    (ReadRawAll SeqReader.asReader 6 (NewSeqReaderWithSep [0, 1, 0, 0, 2] 0) =
      some (((([0, 1, 0, 0, 2] : List Byte).splitOn 0).dropLast, none),
        NewSeqReaderWithSep [] 0) ∧
    (∀ d ∈ (([0, 1, 0, 0, 2] : List Byte).splitOn 0).dropLast, 0 ∉ d) ∧
    ((([0, 1, 0, 0, 2] : List Byte).splitOn 0).dropLast).length =
      ([0, 1, 0, 0, 2] : List Byte).count 0 ∧
    (∀ rest : List Byte, ((0 :: rest).splitOn 0).dropLast =
      [] :: (rest.splitOn 0).dropLast)) ∧
    (([0, 1, 0, 0, 2] : List Byte).splitOn 0).dropLast = [[], [1], []] :=
  ⟨by decide, seqReader_ReadRawAll_segments 0 [0, 1, 0, 0, 2] 6 (by decide), by decide⟩

end Jsonstream
